import Mathlib

/-!
Shallow embedding of colcon-ros package identification
(src/colcon_ros/package_identification/ros.py).

The module identifies ROS packages by their package.xml manifest, classifies
them by build type, fills the descriptor dependency sets (build / run / test),
and, in a batch post-pass, resolves group dependencies into concrete member
packages.  External collaborators (the catkin_pkg manifest parser and the
filesystem) are modelled by a `World` record of oracles; the opaque parsed
package is modelled by the `Package` record exposing exactly the accessors
the source uses.
-/

/-- A dependency item of a parsed manifest (catkin_pkg Dependency): a name,
an optional declared condition (abstracted to its truth value under the
process environment; `none` means no condition attribute), the
`evaluated_condition` slot filled by `evaluate_conditions`, and the five
optional version bounds. -/
structure Dependency where
  name : String
  condition : Option Bool := none
  evaluated_condition : Option Bool := none
  version_lte : Option String := none
  version_lt : Option String := none
  version_gte : Option String := none
  version_gt : Option String := none
  version_eq : Option String := none
deriving DecidableEq, Repr

/-- A group dependency declaration of a parsed manifest: the group name, its
optional condition and the `evaluated_condition` slot. -/
structure GroupDependency where
  name : String
  condition : Option Bool := none
  evaluated_condition : Option Bool := none
deriving DecidableEq, Repr

/-- The parsed manifest object (catkin_pkg Package), restricted to the
accessors the source reads: name, version, the six dependency lists, the
group dependency declarations, the groups this package is a member of, and
the declared build_type export contents (used by get_build_type). -/
structure Package where
  name : String
  version : String := ""
  build_depends : List Dependency := []
  buildtool_depends : List Dependency := []
  build_export_depends : List Dependency := []
  buildtool_export_depends : List Dependency := []
  exec_depends : List Dependency := []
  test_depends : List Dependency := []
  group_depends : List GroupDependency := []
  member_of_groups : List String := []
  build_type_exports : List String := []
deriving DecidableEq, Repr

/-- colcon_core DependencyDescriptor: a dependency name with a metadata
mapping holding the extracted version bounds.  Equality inside a descriptor
dependency set is by name only (the class subclasses str). -/
structure DependencyDescriptor where
  name : String
  metadata : List (String × String) := []
deriving DecidableEq, Repr

/-- The three named dependency sets of a package descriptor.  Each set is a
list without name duplicates; `depSetAdd` mirrors Python set.add, which keeps
the first-added element for an already present name. -/
structure Dependencies where
  build : List DependencyDescriptor := []
  run : List DependencyDescriptor := []
  test : List DependencyDescriptor := []
deriving DecidableEq, Repr

/-- A value stored in descriptor.metadata: either a plain string (the
manifest version) or the deferred python setup options accessor, a callable
re-reading the setup.py file at the recorded path on every call; it is
modelled by the captured path. -/
inductive MetaValue where
  | str (s : String)
  | pythonSetupOptionsGetter (setup_py_path : String)
deriving DecidableEq, Repr

/-- colcon_core PackageDescriptor, the fields this module touches. -/
structure PackageDescriptor where
  path : String
  type : Option String := none
  name : Option String := none
  metadata : List (String × MetaValue) := []
  dependencies : Dependencies := {}
deriving DecidableEq, Repr

/-- Python set.add on a name-keyed dependency set: if an element with the
same name is present the set is unchanged (the first-added element wins),
otherwise the new element is inserted. -/
def depSetAdd (s : List DependencyDescriptor) (d : DependencyDescriptor) :
    List DependencyDescriptor :=
  if s.any (fun e => e.name = d.name) then s else s ++ [d]

/-- Python dict assignment on descriptor.metadata: replace the value of an
existing key in place, else append the binding. -/
def dictInsertMeta (m : List (String × MetaValue)) (k : String) (v : MetaValue) :
    List (String × MetaValue) :=
  if m.any (fun e => e.1 = k) then
    m.map (fun e => if e.1 = k then (k, v) else e)
  else m ++ [(k, v)]

/-- One iteration of the _create_metadata loop: the binding for one version
bound attribute, empty when the attribute is null. -/
def boundEntry (key : String) (o : Option String) : List (String × String) :=
  match o with
  | some v => [(key, v)]
  | none => []

/-- _create_metadata: collect, in the fixed attribute order, every version
bound attribute of the dependency that is non-null. -/
def _create_metadata (d : Dependency) : List (String × String) :=
  boundEntry "version_lte" d.version_lte ++
  boundEntry "version_lt" d.version_lt ++
  boundEntry "version_gte" d.version_gte ++
  boundEntry "version_gt" d.version_gt ++
  boundEntry "version_eq" d.version_eq

/-- catkin_pkg Dependency.evaluate_condition: the evaluated condition is True
when no condition is declared, else the truth value of the condition under
the environment. -/
def evalDep (d : Dependency) : Dependency :=
  { d with evaluated_condition := some (d.condition.getD true) }

/-- catkin_pkg GroupDependency.evaluate_condition, same contract. -/
def evalGroupDep (g : GroupDependency) : GroupDependency :=
  { g with evaluated_condition := some (g.condition.getD true) }

/-- catkin_pkg Package.evaluate_conditions(os.environ): evaluates the
condition of every dependency and group dependency of the package. -/
def evaluate_conditions (p : Package) : Package :=
  { p with
    build_depends := p.build_depends.map evalDep
    buildtool_depends := p.buildtool_depends.map evalDep
    build_export_depends := p.build_export_depends.map evalDep
    buildtool_export_depends := p.buildtool_export_depends.map evalDep
    exec_depends := p.exec_depends.map evalDep
    test_depends := p.test_depends.map evalDep
    group_depends := p.group_depends.map evalGroupDep }

/-- Outcome of the external manifest parser at a path: a parsed package, or
one of the two distinguishable failures the source catches. -/
inductive ParseResult where
  | ok (pkg : Package)
  | invalidPackage
  | assertionError
deriving DecidableEq, Repr

/-- The external world: filesystem oracles (pathExists mirrors Path.exists,
is_file mirrors Path.is_file, both on full path strings joined with a slash)
and the catkin_pkg parser front end (package_exists_at, parse_package). -/
structure World where
  pathExists : String → Bool
  is_file : String → Bool
  package_exists_at : String → Bool
  parse_package : String → ParseResult

/-- _get_package: absent if no manifest exists at the path; a parse failure
(InvalidPackage or AssertionError) is caught and treated as absence; on
success every condition of the package is evaluated before returning it. -/
def _get_package (w : World) (path : String) : Option Package :=
  if ¬ w.package_exists_at path then none
  else
    match w.parse_package path with
    | .ok pkg => some (evaluate_conditions pkg)
    | .invalidPackage => none
    | .assertionError => none

/-- catkin_pkg Package.get_build_type: the single declared build_type export,
the default catkin when none is declared, and an InvalidPackage error when
more than one is declared. -/
def get_build_type (p : Package) : Except Unit String :=
  match p.build_type_exports with
  | [] => .ok "catkin"
  | [t] => .ok t
  | _ => .error ()

/-- _get_build_type: returns the build type; on InvalidPackage the handler
formats a warning message that references the variable path, which is not in
scope in this function, so format_map raises KeyError before the warning is
emitted and before the intended return of None; the KeyError propagates. -/
def _get_build_type (p : Package) : Except Unit (Option String) :=
  match get_build_type p with
  | .ok bt => .ok (some bt)
  | .error _ => .error ()

/-- The process-wide _cached_packages mapping: path to the pair of the parsed
package (or absent) and its build type (or absent). -/
abbrev Cache := List (String × (Option Package × Option String))

/-- Dict lookup in the cache. -/
def cacheLookup (c : Cache) (p : String) :
    Option (Option Package × Option String) :=
  match c with
  | [] => none
  | (q, v) :: rest => if q = p then some v else cacheLookup rest p

/-- Result of get_package_with_build_type: the pair and the updated cache, or
the KeyError escaping from _get_build_type (in which case nothing is stored). -/
inductive GetPkgResult where
  | ok (pkg : Option Package) (build_type : Option String) (cache : Cache)
  | keyError
deriving DecidableEq, Repr

/-- get_package_with_build_type: on a cache miss compute the package via
_get_package and, when a package was found, its build type via
_get_build_type, store the pair and return it; on a hit return the stored
pair untouched.  The KeyError raised by _get_build_type for a package with
more than one build type propagates before the pair is stored. -/
def get_package_with_build_type (w : World) (c : Cache) (path : String) :
    GetPkgResult :=
  match cacheLookup c path with
  | some v => .ok v.1 v.2 c
  | none =>
    match _get_package w path with
    | none => .ok none none (c ++ [(path, (none, none))])
    | some pkg =>
      match _get_build_type pkg with
      | .error _ => .keyError
      | .ok bt => .ok (some pkg) bt (c ++ [(path, (some pkg, bt))])

/-- The outcome signal of one identify call: a normal return, the
IgnoreLocationException control signal, the uncaught KeyError escaping from
_get_build_type, or an AssertionError from a dependency whose
evaluated_condition is null. -/
inductive Signal where
  | normal
  | skip
  | keyError
  | assertError
deriving DecidableEq, Repr

/-- A log record emitted by this module.  The only reachable record is the
error logged before the SkipLocation signal for an ament_python package
without a setup.py file; it carries the descriptor path and the build type
interpolated into the message text. -/
inductive LogEntry where
  | errorMissingSetupPy (path : String) (build_type : String)
deriving DecidableEq, Repr

/-- The observable result of one identify call: the descriptor state (the
object is mutated in place; on a raise this is its state at the raise), the
cache state, the emitted log records, and the signal. -/
structure IdentifyOut where
  desc : PackageDescriptor
  cache : Cache
  log : List LogEntry
  signal : Signal
deriving DecidableEq, Repr

/-- One dependency loop of identify: for each dependency assert that its
evaluated_condition is non-null (a null aborts the loop with the partially
extended set), and add those with a true condition to the set together with
their extracted version bound metadata. -/
def addDeps : List Dependency → List DependencyDescriptor →
    List DependencyDescriptor × Bool
  | [], s => (s, true)
  | d :: rest, s =>
    match d.evaluated_condition with
    | none => (s, false)
    | some true => addDeps rest (depSetAdd s ⟨d.name, _create_metadata d⟩)
    | some false => addDeps rest s

/-- The mutation tail of identify, entered once all guards have passed: set
the type tag, adopt the manifest name only when unset, record the version,
run the three dependency loops (an assertion failure aborts with the
mutations made so far), and for ament_python attach the deferred setup
options accessor. -/
def identifyMain (cache' : Cache) (desc : PackageDescriptor) (pkg : Package)
    (bt : String) : IdentifyOut :=
  let d1 : PackageDescriptor := { desc with type := some ("ros." ++ bt) }
  let d2 : PackageDescriptor :=
    { d1 with name := if d1.name = none then some pkg.name else d1.name }
  let d3 : PackageDescriptor :=
    { d2 with metadata := dictInsertMeta d2.metadata "version" (.str pkg.version) }
  let pb := addDeps (pkg.build_depends ++ pkg.buildtool_depends)
    d3.dependencies.build
  let d4 : PackageDescriptor :=
    { d3 with dependencies := { d3.dependencies with build := pb.1 } }
  if ¬ pb.2 then ⟨d4, cache', [], .assertError⟩
  else
    let pr := addDeps
      (pkg.build_export_depends ++ pkg.buildtool_export_depends ++
        pkg.exec_depends) d4.dependencies.run
    let d5 : PackageDescriptor :=
      { d4 with dependencies := { d4.dependencies with run := pr.1 } }
    if ¬ pr.2 then ⟨d5, cache', [], .assertError⟩
    else
      let pt := addDeps pkg.test_depends d5.dependencies.test
      let d6 : PackageDescriptor :=
        { d5 with dependencies := { d5.dependencies with test := pt.1 } }
      if ¬ pt.2 then ⟨d6, cache', [], .assertError⟩
      else
        let d7 : PackageDescriptor :=
          { d6 with metadata :=
              (if bt = "ament_python" then
                dictInsertMeta d6.metadata "get_python_setup_options"
                  (.pythonSetupOptionsGetter (desc.path ++ "/setup.py"))
              else d6.metadata) }
        ⟨d7, cache', [], .normal⟩

/-- RosPackageIdentification.identify.  In source order: defer to a foreign
type tag; signal on an ignore marker file; look the pair up through the
cache; on no package or no (or empty, Python falsiness) build type either
signal on a legacy manifest.xml or return untouched; for ament_python
require a setup.py file, logging an error and signalling when it is missing;
then run the mutation tail identifyMain. -/
def identify (w : World) (cache : Cache) (desc : PackageDescriptor) :
    IdentifyOut :=
  if desc.type ≠ none ∧ desc.type ≠ some "ros" then
    ⟨desc, cache, [], .normal⟩
  else if w.pathExists (desc.path ++ "/CATKIN_IGNORE") then
    ⟨desc, cache, [], .skip⟩
  else if w.pathExists (desc.path ++ "/AMENT_IGNORE") then
    ⟨desc, cache, [], .skip⟩
  else
    match get_package_with_build_type w cache desc.path with
    | .keyError => ⟨desc, cache, [], .keyError⟩
    | .ok pkg? bt? cache' =>
      match pkg?, bt? with
      | some pkg, some bt =>
        if bt = "" then
          if w.pathExists (desc.path ++ "/manifest.xml") then
            ⟨desc, cache', [], .skip⟩
          else ⟨desc, cache', [], .normal⟩
        else
          if bt = "ament_python" ∧ ¬ w.is_file (desc.path ++ "/setup.py") then
            ⟨desc, cache', [.errorMissingSetupPy desc.path bt], .skip⟩
          else
            identifyMain cache' desc pkg bt
      | _, _ =>
        if w.pathExists (desc.path ++ "/manifest.xml") then
          ⟨desc, cache', [], .skip⟩
        else ⟨desc, cache', [], .normal⟩

/-- Python dict assignment on the package to descriptor mapping built by
augment_packages: replace the value of an existing package key in place,
else append the binding.  Package keys are the distinct parsed package
objects held by the cache, one per cached path. -/
def dictInsertPkg : List (Package × PackageDescriptor) → Package →
    PackageDescriptor → List (Package × PackageDescriptor)
  | [], k, v => [(k, v)]
  | e :: rest, k, v =>
    if e.1 = k then (k, v) :: rest else e :: dictInsertPkg rest k v

/-- First pass of augment_packages: walk the batch in order and map every
cached non-absent package to its descriptor; descriptors whose path has no
cache entry, or whose cached package is absent, are skipped. -/
def buildPkgsAux (cache : Cache) :
    List PackageDescriptor → List (Package × PackageDescriptor) →
    List (Package × PackageDescriptor)
  | [], pkgs => pkgs
  | desc :: rest, pkgs =>
    match cacheLookup cache desc.path with
    | none => buildPkgsAux cache rest pkgs
    | some (none, _) => buildPkgsAux cache rest pkgs
    | some (some pkg, _) => buildPkgsAux cache rest (dictInsertPkg pkgs pkg desc)

def buildPkgs (cache : Cache) (descs : List PackageDescriptor) :
    List (Package × PackageDescriptor) :=
  buildPkgsAux cache descs []

/-- catkin_pkg GroupDependency.extract_group_members, per its contract in
the spec (section 3): against a mapping, the members are the names of
exactly those mapped packages that declare membership in this group; a
package outside the mapping is never a member. -/
def extract_group_members (g : GroupDependency) (pkgs : List Package) :
    List String :=
  (pkgs.filter (fun p => p.member_of_groups.contains g.name)).map
    (fun p => p.name)

/-- Add every resolved group member name to both the build and the run
dependency set of the declaring descriptor (DependencyDescriptor with no
metadata). -/
def addGroupMembers : List String → PackageDescriptor → PackageDescriptor
  | [], d => d
  | n :: rest, d =>
    addGroupMembers rest
      { d with dependencies :=
          { d.dependencies with
            build := depSetAdd d.dependencies.build ⟨n, []⟩
            run := depSetAdd d.dependencies.run ⟨n, []⟩ } }

/-- The group dependency loop of augment_packages for one package: assert
that each group dependency has a non-null evaluated condition (a null aborts
the pass with the descriptor as mutated so far), skip those with a false
condition, and for the rest resolve the members against the mapping and add
them to the build and run sets. -/
def processGroupDeps (keys : List Package) :
    List GroupDependency → PackageDescriptor → PackageDescriptor × Bool
  | [], d => (d, true)
  | g :: rest, d =>
    match g.evaluated_condition with
    | none => (d, false)
    | some true =>
      processGroupDeps keys rest (addGroupMembers (extract_group_members g keys) d)
    | some false => processGroupDeps keys rest d

/-- In-place mutation of the batch: descriptors are keyed by their path,
unique per scan (spec section 3), so updating the object is updating the
batch entry with that path. -/
def storeUpdate : List PackageDescriptor → String → PackageDescriptor →
    List PackageDescriptor
  | [], _, _ => []
  | e :: rest, path, d =>
    (if e.path = path then d else e) :: storeUpdate rest path d

/-- Second pass of augment_packages: process the mapping entries in
insertion order; each package mutates its own descriptor only.  An
AssertionError aborts the pass, keeping the mutations already made. -/
def augLoop (keys : List Package) :
    List (Package × PackageDescriptor) → List PackageDescriptor →
    List PackageDescriptor × Bool
  | [], store => (store, true)
  | (pkg, desc) :: rest, store =>
    let pd := processGroupDeps keys pkg.group_depends desc
    let store' := storeUpdate store desc.path pd.1
    if pd.2 then augLoop keys rest store' else (store', false)

/-- RosPackageIdentification.augment_packages: build the package to
descriptor mapping over the batch from the cache, then resolve every
true-condition group dependency of every mapped package against the mapping
and add the member names to the build and run sets of the declaring
descriptor.  Returns the mutated batch and whether the pass ran to
completion (False when an assertion failed). -/
def augment_packages (cache : Cache) (descs : List PackageDescriptor) :
    List PackageDescriptor × Bool :=
  let pkgs := buildPkgs cache descs
  augLoop (pkgs.map (fun e => e.1)) pkgs descs

/-- The whole mutable state an identification session threads: the process
wide manifest cache and the batch of descriptors. -/
structure ScanState where
  cache : Cache
  descs : List PackageDescriptor

/-- One step of a scan session: either one identify call on one descriptor
of the batch (threading the cache and updating that descriptor in place),
or one augment_packages call over the whole batch. -/
inductive ScanStep (w : World) : ScanState → ScanState → Prop
  | identifyAt (s : ScanState) (i : Fin s.descs.length) :
      ScanStep w s
        ⟨(identify w s.cache (s.descs.get i)).cache,
          s.descs.set i (identify w s.cache (s.descs.get i)).desc⟩
  | augment (s : ScanState) :
      ScanStep w s ⟨s.cache, (augment_packages s.cache s.descs).1⟩

/-- Name-keyed membership in a descriptor dependency set. -/
def nameIn (n : String) (s : List DependencyDescriptor) : Prop :=
  ∃ d ∈ s, d.name = n

instance (n : String) (s : List DependencyDescriptor) : Decidable (nameIn n s) := by
  unfold nameIn; infer_instance

/-- A dependency list contributes a name when it holds an item of that name
whose evaluated condition is true. -/
def trueDepName (n : String) (ds : List Dependency) : Prop :=
  ∃ d ∈ ds, d.name = n ∧ d.evaluated_condition = some true

instance (n : String) (ds : List Dependency) : Decidable (trueDepName n ds) := by
  unfold trueDepName; infer_instance

/-- All dependency items and group dependencies of a package carry a
non-null evaluated condition, the invariant the Loader establishes. -/
def PkgEvaluated (p : Package) : Prop :=
  (∀ d ∈ p.build_depends, (Dependency.evaluated_condition d).isSome) ∧
  (∀ d ∈ p.buildtool_depends, (Dependency.evaluated_condition d).isSome) ∧
  (∀ d ∈ p.build_export_depends, (Dependency.evaluated_condition d).isSome) ∧
  (∀ d ∈ p.buildtool_export_depends, (Dependency.evaluated_condition d).isSome) ∧
  (∀ d ∈ p.exec_depends, (Dependency.evaluated_condition d).isSome) ∧
  (∀ d ∈ p.test_depends, (Dependency.evaluated_condition d).isSome) ∧
  (∀ g ∈ p.group_depends, (GroupDependency.evaluated_condition g).isSome)

theorem mem_depSetAdd {dd : DependencyDescriptor}
    {s : List DependencyDescriptor} (d : DependencyDescriptor)
    (h : dd ∈ s) : dd ∈ depSetAdd s d := by
  unfold depSetAdd
  split
  · exact h
  · exact List.mem_append_left _ h

theorem nameIn_depSetAdd (n : String) (s : List DependencyDescriptor)
    (d : DependencyDescriptor) :
    nameIn n (depSetAdd s d) ↔ nameIn n s ∨ n = d.name := by
  unfold depSetAdd nameIn
  split
  · rename_i h
    simp only [List.any_eq_true, decide_eq_true_eq] at h
    constructor
    · exact Or.inl
    · rintro (hs | rfl)
      · exact hs
      · exact h
  · simp only [List.mem_append, List.mem_singleton]
    constructor
    · rintro ⟨e, he | he, hn⟩
      · exact Or.inl ⟨e, he, hn⟩
      · subst he; exact Or.inr hn.symm
    · rintro (⟨e, he, hn⟩ | rfl)
      · exact ⟨e, Or.inl he, hn⟩
      · exact ⟨d, Or.inr rfl, rfl⟩

theorem addDeps_cons_none {d : Dependency} (rest : List Dependency)
    (s : List DependencyDescriptor) (h : d.evaluated_condition = none) :
    addDeps (d :: rest) s = (s, false) := by
  simp only [addDeps, h]

theorem addDeps_cons_true {d : Dependency} (rest : List Dependency)
    (s : List DependencyDescriptor) (h : d.evaluated_condition = some true) :
    addDeps (d :: rest) s =
      addDeps rest (depSetAdd s ⟨d.name, _create_metadata d⟩) := by
  simp only [addDeps, h]

theorem addDeps_cons_false {d : Dependency} (rest : List Dependency)
    (s : List DependencyDescriptor) (h : d.evaluated_condition = some false) :
    addDeps (d :: rest) s = addDeps rest s := by
  simp only [addDeps, h]

theorem addDeps_mono {dd : DependencyDescriptor} (ds : List Dependency)
    (s : List DependencyDescriptor) (h : dd ∈ s) : dd ∈ (addDeps ds s).1 := by
  induction ds generalizing s with
  | nil => simpa [addDeps]
  | cons d rest ih =>
    cases hd : d.evaluated_condition with
    | none => rw [addDeps_cons_none rest s hd]; exact h
    | some c =>
      cases c with
      | false => rw [addDeps_cons_false rest s hd]; exact ih s h
      | true =>
        rw [addDeps_cons_true rest s hd]
        exact ih _ (mem_depSetAdd _ h)

theorem nameIn_mono_depSetAdd {n : String} {s : List DependencyDescriptor}
    (d : DependencyDescriptor) (h : nameIn n s) : nameIn n (depSetAdd s d) :=
  (nameIn_depSetAdd n s d).mpr (Or.inl h)

theorem trueDepName_cons (n : String) (d : Dependency) (ds : List Dependency) :
    trueDepName n (d :: ds) ↔
      (d.name = n ∧ d.evaluated_condition = some true) ∨ trueDepName n ds := by
  simp [trueDepName]

theorem addDeps_ok (ds : List Dependency) (s : List DependencyDescriptor)
    (h : ∀ d ∈ ds, (Dependency.evaluated_condition d).isSome) :
    (addDeps ds s).2 = true := by
  induction ds generalizing s with
  | nil => rfl
  | cons d rest ih =>
    have hrest := fun x hx => h x (List.mem_cons_of_mem _ hx)
    cases hd : d.evaluated_condition with
    | none =>
      exact absurd (h d (List.mem_cons_self _ _)) (by simp [hd])
    | some c =>
      cases c with
      | false => rw [addDeps_cons_false rest s hd]; exact ih _ hrest
      | true => rw [addDeps_cons_true rest s hd]; exact ih _ hrest

theorem nameIn_addDeps (ds : List Dependency) (s : List DependencyDescriptor)
    (h : ∀ d ∈ ds, (Dependency.evaluated_condition d).isSome) (n : String) :
    nameIn n (addDeps ds s).1 ↔ nameIn n s ∨ trueDepName n ds := by
  induction ds generalizing s with
  | nil => simp [addDeps, trueDepName]
  | cons d rest ih =>
    have hrest := fun x hx => h x (List.mem_cons_of_mem _ hx)
    cases hd : d.evaluated_condition with
    | none =>
      exact absurd (h d (List.mem_cons_self _ _)) (by simp [hd])
    | some c =>
      cases c with
      | false =>
        rw [addDeps_cons_false rest s hd, ih s hrest, trueDepName_cons]
        constructor
        · rintro (hs | ht)
          · exact Or.inl hs
          · exact Or.inr (Or.inr ht)
        · rintro (hs | ⟨_, hc⟩ | ht)
          · exact Or.inl hs
          · exact absurd (hd.symm.trans hc) (by simp)
          · exact Or.inr ht
      | true =>
        rw [addDeps_cons_true rest s hd, ih _ hrest, nameIn_depSetAdd,
          trueDepName_cons]
        constructor
        · rintro ((hs | rfl) | ht)
          · exact Or.inl hs
          · exact Or.inr (Or.inl ⟨rfl, hd⟩)
          · exact Or.inr (Or.inr ht)
        · rintro (hs | ⟨hn, _⟩ | ht)
          · exact Or.inl (Or.inl hs)
          · exact Or.inl (Or.inr hn.symm)
          · exact Or.inr ht

theorem identifyMain_cache (c' : Cache) (desc : PackageDescriptor)
    (pkg : Package) (bt : String) :
    (identifyMain c' desc pkg bt).cache = c' := by
  unfold identifyMain
  dsimp only
  split
  · rfl
  · split
    · rfl
    · split <;> rfl

theorem identifyMain_log (c' : Cache) (desc : PackageDescriptor)
    (pkg : Package) (bt : String) :
    (identifyMain c' desc pkg bt).log = [] := by
  unfold identifyMain
  dsimp only
  split
  · rfl
  · split
    · rfl
    · split <;> rfl

theorem identifyMain_path (c' : Cache) (desc : PackageDescriptor)
    (pkg : Package) (bt : String) :
    (identifyMain c' desc pkg bt).desc.path = desc.path := by
  unfold identifyMain
  dsimp only
  split
  · rfl
  · split
    · rfl
    · split <;> rfl

theorem identifyMain_type (c' : Cache) (desc : PackageDescriptor)
    (pkg : Package) (bt : String) :
    (identifyMain c' desc pkg bt).desc.type = some ("ros." ++ bt) := by
  unfold identifyMain
  dsimp only
  split
  · rfl
  · split
    · rfl
    · split <;> rfl

theorem identifyMain_name (c' : Cache) (desc : PackageDescriptor)
    (pkg : Package) (bt : String) :
    (identifyMain c' desc pkg bt).desc.name =
      (if desc.name = none then some pkg.name else desc.name) := by
  unfold identifyMain
  dsimp only
  split
  · rfl
  · split
    · rfl
    · split <;> rfl

theorem identifyMain_build (c' : Cache) (desc : PackageDescriptor)
    (pkg : Package) (bt : String) :
    (identifyMain c' desc pkg bt).desc.dependencies.build =
      (addDeps (pkg.build_depends ++ pkg.buildtool_depends)
        desc.dependencies.build).1 := by
  unfold identifyMain
  dsimp only
  split
  · rfl
  · split
    · rfl
    · split <;> rfl

theorem identifyMain_run (c' : Cache) (desc : PackageDescriptor)
    (pkg : Package) (bt : String)
    (hb : ∀ d ∈ pkg.build_depends ++ pkg.buildtool_depends,
      (Dependency.evaluated_condition d).isSome) :
    (identifyMain c' desc pkg bt).desc.dependencies.run =
      (addDeps (pkg.build_export_depends ++ pkg.buildtool_export_depends ++
        pkg.exec_depends) desc.dependencies.run).1 := by
  unfold identifyMain
  dsimp only
  rw [if_neg (not_not_intro (addDeps_ok _ _ hb))]
  split
  · rfl
  · split <;> rfl

theorem identifyMain_test (c' : Cache) (desc : PackageDescriptor)
    (pkg : Package) (bt : String)
    (hb : ∀ d ∈ pkg.build_depends ++ pkg.buildtool_depends,
      (Dependency.evaluated_condition d).isSome)
    (hr : ∀ d ∈ pkg.build_export_depends ++ pkg.buildtool_export_depends ++
      pkg.exec_depends, (Dependency.evaluated_condition d).isSome) :
    (identifyMain c' desc pkg bt).desc.dependencies.test =
      (addDeps pkg.test_depends desc.dependencies.test).1 := by
  unfold identifyMain
  dsimp only
  rw [if_neg (not_not_intro (addDeps_ok _ _ hb))]
  rw [if_neg (not_not_intro (addDeps_ok _ _ hr))]
  split <;> rfl

theorem identifyMain_signal (c' : Cache) (desc : PackageDescriptor)
    (pkg : Package) (bt : String)
    (hb : ∀ d ∈ pkg.build_depends ++ pkg.buildtool_depends,
      (Dependency.evaluated_condition d).isSome)
    (hr : ∀ d ∈ pkg.build_export_depends ++ pkg.buildtool_export_depends ++
      pkg.exec_depends, (Dependency.evaluated_condition d).isSome)
    (ht : ∀ d ∈ pkg.test_depends, (Dependency.evaluated_condition d).isSome) :
    (identifyMain c' desc pkg bt).signal = .normal := by
  unfold identifyMain
  dsimp only
  rw [if_neg (not_not_intro (addDeps_ok _ _ hb))]
  rw [if_neg (not_not_intro (addDeps_ok _ _ hr))]
  rw [if_neg (not_not_intro (addDeps_ok _ _ ht))]

theorem identify_foreign_type (w : World) (c : Cache) (desc : PackageDescriptor)
    (h : desc.type ≠ none ∧ desc.type ≠ some "ros") :
    identify w c desc = ⟨desc, c, [], .normal⟩ := by
  unfold identify
  rw [if_pos h]

theorem type_guard_passes {desc : PackageDescriptor}
    (hty : desc.type = none ∨ desc.type = some "ros") :
    ¬ (desc.type ≠ none ∧ desc.type ≠ some "ros") := by
  rcases hty with h | h <;> simp [h]

theorem identify_catkin_ignore (w : World) (c : Cache)
    (desc : PackageDescriptor)
    (hty : desc.type = none ∨ desc.type = some "ros")
    (hci : w.pathExists (desc.path ++ "/CATKIN_IGNORE") = true) :
    identify w c desc = ⟨desc, c, [], .skip⟩ := by
  unfold identify
  rw [if_neg (type_guard_passes hty), if_pos hci]

theorem identify_ament_ignore (w : World) (c : Cache)
    (desc : PackageDescriptor)
    (hty : desc.type = none ∨ desc.type = some "ros")
    (hci : w.pathExists (desc.path ++ "/CATKIN_IGNORE") = false)
    (hai : w.pathExists (desc.path ++ "/AMENT_IGNORE") = true) :
    identify w c desc = ⟨desc, c, [], .skip⟩ := by
  unfold identify
  rw [if_neg (type_guard_passes hty)]
  rw [hci]
  rw [if_neg (by simp), if_pos hai]

theorem identify_absent (w : World) (c : Cache) (desc : PackageDescriptor)
    (pkg? : Option Package) (bt? : Option String) (c' : Cache)
    (hty : desc.type = none ∨ desc.type = some "ros")
    (hci : w.pathExists (desc.path ++ "/CATKIN_IGNORE") = false)
    (hai : w.pathExists (desc.path ++ "/AMENT_IGNORE") = false)
    (hlook : get_package_with_build_type w c desc.path = .ok pkg? bt? c')
    (habs : pkg? = none ∨ bt? = none ∨ bt? = some "") :
    identify w c desc =
      (if w.pathExists (desc.path ++ "/manifest.xml") then
        ⟨desc, c', [], .skip⟩
      else ⟨desc, c', [], .normal⟩) := by
  unfold identify
  rw [if_neg (type_guard_passes hty)]
  rw [hci, hai]
  rw [if_neg (by simp), if_neg (by simp)]
  rw [hlook]
  dsimp only
  match pkg?, bt?, habs with
  | none, bt?, _ =>
    cases bt? <;> rfl
  | some pkg, none, _ => rfl
  | some pkg, some bt, habs =>
    have hbt : bt = "" := by
      rcases habs with h | h | h
      · exact absurd h (by simp)
      · exact absurd h (by simp)
      · exact (Option.some_inj.mp h)
    subst hbt
    rfl

theorem identify_missing_setup_py (w : World) (c : Cache)
    (desc : PackageDescriptor) (pkg : Package) (c' : Cache)
    (hty : desc.type = none ∨ desc.type = some "ros")
    (hci : w.pathExists (desc.path ++ "/CATKIN_IGNORE") = false)
    (hai : w.pathExists (desc.path ++ "/AMENT_IGNORE") = false)
    (hlook : get_package_with_build_type w c desc.path =
      .ok (some pkg) (some "ament_python") c')
    (hsetup : w.is_file (desc.path ++ "/setup.py") = false) :
    identify w c desc =
      ⟨desc, c', [.errorMissingSetupPy desc.path "ament_python"], .skip⟩ := by
  unfold identify
  rw [if_neg (type_guard_passes hty)]
  rw [hci, hai]
  rw [if_neg (by simp), if_neg (by simp)]
  rw [hlook]
  dsimp only
  rw [if_neg (by simp)]
  rw [if_pos (by simp [hsetup])]

theorem identify_eq_main (w : World) (c : Cache) (desc : PackageDescriptor)
    (pkg : Package) (bt : String) (c' : Cache)
    (hty : desc.type = none ∨ desc.type = some "ros")
    (hci : w.pathExists (desc.path ++ "/CATKIN_IGNORE") = false)
    (hai : w.pathExists (desc.path ++ "/AMENT_IGNORE") = false)
    (hlook : get_package_with_build_type w c desc.path = .ok (some pkg) (some bt) c')
    (hbt : bt ≠ "")
    (hsetup : bt = "ament_python" → w.is_file (desc.path ++ "/setup.py") = true) :
    identify w c desc = identifyMain c' desc pkg bt := by
  unfold identify
  rw [if_neg (type_guard_passes hty)]
  rw [hci, hai]
  rw [if_neg (by simp), if_neg (by simp)]
  rw [hlook]
  dsimp only
  rw [if_neg hbt]
  rw [if_neg (by rintro ⟨ha, hn⟩; exact hn (by simp [hsetup ha]))]

theorem PkgEvaluated.buildLists {p : Package} (h : PkgEvaluated p) :
    ∀ d ∈ p.build_depends ++ p.buildtool_depends,
      (Dependency.evaluated_condition d).isSome := by
  intro d hd
  rcases List.mem_append.mp hd with h1 | h1
  · exact h.1 d h1
  · exact h.2.1 d h1

theorem PkgEvaluated.runLists {p : Package} (h : PkgEvaluated p) :
    ∀ d ∈ p.build_export_depends ++ p.buildtool_export_depends ++
      p.exec_depends, (Dependency.evaluated_condition d).isSome := by
  intro d hd
  rcases List.mem_append.mp hd with h1 | h1
  · rcases List.mem_append.mp h1 with h2 | h2
    · exact h.2.2.1 d h2
    · exact h.2.2.2.1 d h2
  · exact h.2.2.2.2.1 d h1

theorem PkgEvaluated.testList {p : Package} (h : PkgEvaluated p) :
    ∀ d ∈ p.test_depends, (Dependency.evaluated_condition d).isSome :=
  h.2.2.2.2.2.1

theorem PkgEvaluated.groupList {p : Package} (h : PkgEvaluated p) :
    ∀ g ∈ p.group_depends, (GroupDependency.evaluated_condition g).isSome :=
  h.2.2.2.2.2.2

theorem evaluate_conditions_evaluated (p : Package) :
    PkgEvaluated (evaluate_conditions p) := by
  refine ⟨?_, ?_, ?_, ?_, ?_, ?_, ?_⟩ <;>
    · intro d hd
      simp only [evaluate_conditions, List.mem_map] at hd
      rcases hd with ⟨x, _, rfl⟩
      rfl

theorem cacheLookup_append (c : Cache) (e : String × (Option Package × Option String))
    (q : String) :
    cacheLookup (c ++ [e]) q =
      match cacheLookup c q with
      | some v => some v
      | none => if e.1 = q then some e.2 else none := by
  induction c with
  | nil => rfl
  | cons hd tl ih =>
    unfold cacheLookup
    by_cases h : hd.1 = q
    · simp [h]
    · simp only [List.cons_append]
      simp [h, ih]

/-- Every package stored in the cache went through the Loader, so all of its
conditions are evaluated. -/
def CacheWF (c : Cache) : Prop :=
  ∀ path pkg bt, cacheLookup c path = some (some pkg, bt) → PkgEvaluated pkg

theorem cacheWF_nil : CacheWF [] := by
  intro path pkg bt h
  simp [cacheLookup] at h

theorem gpwbt_hit (w : World) (c : Cache) (path : String)
    (v : Option Package × Option String)
    (hcl : cacheLookup c path = some v) :
    get_package_with_build_type w c path = .ok v.1 v.2 c := by
  unfold get_package_with_build_type
  rw [hcl]

theorem gpwbt_miss_absent (w : World) (c : Cache) (path : String)
    (hcl : cacheLookup c path = none)
    (habs : _get_package w path = none) :
    get_package_with_build_type w c path =
      .ok none none (c ++ [(path, (none, none))]) := by
  unfold get_package_with_build_type
  rw [hcl, habs]

theorem gpwbt_miss_found (w : World) (c : Cache) (path : String)
    (pkg : Package) (bt : Option String)
    (hcl : cacheLookup c path = none)
    (hpkg : _get_package w path = some pkg)
    (hbt : _get_build_type pkg = .ok bt) :
    get_package_with_build_type w c path =
      .ok (some pkg) bt (c ++ [(path, (some pkg, bt))]) := by
  simp only [get_package_with_build_type, hcl, hpkg, hbt]

theorem gpwbt_miss_keyerror (w : World) (c : Cache) (path : String)
    (pkg : Package)
    (hcl : cacheLookup c path = none)
    (hpkg : _get_package w path = some pkg)
    (hbt : _get_build_type pkg = .error ()) :
    get_package_with_build_type w c path = .keyError := by
  simp only [get_package_with_build_type, hcl, hpkg, hbt]

theorem _get_package_evaluated (w : World) (path : String) (pkg : Package)
    (h : _get_package w path = some pkg) : PkgEvaluated pkg := by
  unfold _get_package at h
  split at h
  · exact absurd h (by simp)
  · split at h
    · rename_i pkg0 _
      have heq : evaluate_conditions pkg0 = pkg := by simpa using h
      rw [← heq]
      exact evaluate_conditions_evaluated pkg0
    · exact absurd h (by simp)
    · exact absurd h (by simp)

theorem gpwbt_evaluated (w : World) (c : Cache) (path : String)
    (pkg : Package) (bt : Option String) (c' : Cache) (hwf : CacheWF c)
    (h : get_package_with_build_type w c path = .ok (some pkg) bt c') :
    PkgEvaluated pkg := by
  cases hcl : cacheLookup c path with
  | some v =>
    obtain ⟨v1, v2⟩ := v
    rw [gpwbt_hit w c path ⟨v1, v2⟩ hcl] at h
    simp only [GetPkgResult.ok.injEq] at h
    obtain ⟨h1, h2, h3⟩ := h
    rw [h1, h2] at hcl
    exact hwf path pkg bt hcl
  | none =>
    cases hpkg : _get_package w path with
    | none =>
      rw [gpwbt_miss_absent w c path hcl hpkg] at h
      simp only [GetPkgResult.ok.injEq] at h
      exact absurd h.1 (by simp)
    | some pkg0 =>
      cases hbt : _get_build_type pkg0 with
      | error e =>
        cases e
        rw [gpwbt_miss_keyerror w c path pkg0 hcl hpkg hbt] at h
        cases h
      | ok bt0 =>
        rw [gpwbt_miss_found w c path pkg0 bt0 hcl hpkg hbt] at h
        simp only [GetPkgResult.ok.injEq] at h
        obtain ⟨h1, h2, h3⟩ := h
        rw [← Option.some_inj.mp h1]
        exact _get_package_evaluated w path pkg0 hpkg

theorem gpwbt_preserves_wf (w : World) (c : Cache) (path : String)
    (pkg? : Option Package) (bt? : Option String) (c' : Cache)
    (hwf : CacheWF c)
    (h : get_package_with_build_type w c path = .ok pkg? bt? c') :
    CacheWF c' := by
  cases hcl : cacheLookup c path with
  | some v =>
    obtain ⟨v1, v2⟩ := v
    rw [gpwbt_hit w c path ⟨v1, v2⟩ hcl] at h
    simp only [GetPkgResult.ok.injEq] at h
    rw [← h.2.2]
    exact hwf
  | none =>
    cases hpkg : _get_package w path with
    | none =>
      rw [gpwbt_miss_absent w c path hcl hpkg] at h
      simp only [GetPkgResult.ok.injEq] at h
      rw [← h.2.2]
      intro q pkg bt hq
      rw [cacheLookup_append] at hq
      cases hq2 : cacheLookup c q with
      | some v => rw [hq2] at hq; cases hq; exact hwf q pkg bt hq2
      | none =>
        rw [hq2] at hq
        dsimp only at hq
        split at hq
        · exact absurd (congrArg Prod.fst (Option.some_inj.mp hq)) (by simp)
        · exact absurd hq (by simp)
    | some pkg0 =>
      cases hbt : _get_build_type pkg0 with
      | error e =>
        cases e
        rw [gpwbt_miss_keyerror w c path pkg0 hcl hpkg hbt] at h
        cases h
      | ok bt0 =>
        rw [gpwbt_miss_found w c path pkg0 bt0 hcl hpkg hbt] at h
        simp only [GetPkgResult.ok.injEq] at h
        rw [← h.2.2]
        intro q pkg bt hq
        rw [cacheLookup_append] at hq
        cases hq2 : cacheLookup c q with
        | some v => rw [hq2] at hq; cases hq; exact hwf q pkg bt hq2
        | none =>
          rw [hq2] at hq
          dsimp only at hq
          split at hq
          · have h5 := congrArg Prod.fst (Option.some_inj.mp hq)
            rw [← Option.some_inj.mp h5]
            exact _get_package_evaluated w path pkg0 hpkg
          · exact absurd hq (by simp)

theorem addGroupMembers_path (ms : List String) (d : PackageDescriptor) :
    (addGroupMembers ms d).path = d.path := by
  induction ms generalizing d with
  | nil => rfl
  | cons n rest ih => rw [addGroupMembers]; exact ih _

theorem addGroupMembers_test (ms : List String) (d : PackageDescriptor) :
    (addGroupMembers ms d).dependencies.test = d.dependencies.test := by
  induction ms generalizing d with
  | nil => rfl
  | cons n rest ih => rw [addGroupMembers]; exact ih _

theorem addGroupMembers_mem_build {dd : DependencyDescriptor}
    (ms : List String) (d : PackageDescriptor)
    (h : dd ∈ d.dependencies.build) :
    dd ∈ (addGroupMembers ms d).dependencies.build := by
  induction ms generalizing d with
  | nil => exact h
  | cons n rest ih => rw [addGroupMembers]; exact ih _ (mem_depSetAdd _ h)

theorem addGroupMembers_mem_run {dd : DependencyDescriptor}
    (ms : List String) (d : PackageDescriptor)
    (h : dd ∈ d.dependencies.run) :
    dd ∈ (addGroupMembers ms d).dependencies.run := by
  induction ms generalizing d with
  | nil => exact h
  | cons n rest ih => rw [addGroupMembers]; exact ih _ (mem_depSetAdd _ h)

theorem nameIn_mono {n : String} {s t : List DependencyDescriptor}
    (hsub : ∀ dd ∈ s, dd ∈ t) (h : nameIn n s) : nameIn n t := by
  obtain ⟨dd, hdd, hn⟩ := h
  exact ⟨dd, hsub dd hdd, hn⟩

theorem addGroupMembers_adds (n : String) (ms : List String)
    (d : PackageDescriptor) (h : n ∈ ms) :
    nameIn n (addGroupMembers ms d).dependencies.build ∧
    nameIn n (addGroupMembers ms d).dependencies.run := by
  induction ms generalizing d with
  | nil => cases h
  | cons m rest ih =>
    rw [addGroupMembers]
    rcases List.mem_cons.mp h with rfl | hrest
    · constructor
      · exact nameIn_mono (fun dd hdd => addGroupMembers_mem_build rest _ hdd)
          ((nameIn_depSetAdd n _ _).mpr (Or.inr rfl))
      · exact nameIn_mono (fun dd hdd => addGroupMembers_mem_run rest _ hdd)
          ((nameIn_depSetAdd n _ _).mpr (Or.inr rfl))
    · exact ih _ hrest

theorem extract_group_members_sub (g : GroupDependency) (keys : List Package)
    (n : String) (h : n ∈ extract_group_members g keys) :
    ∃ p ∈ keys, p.name = n := by
  unfold extract_group_members at h
  rw [List.mem_map] at h
  obtain ⟨p, hp, rfl⟩ := h
  exact ⟨p, (List.mem_filter.mp hp).1, rfl⟩

theorem processGroupDeps_cons_none (keys : List Package)
    {g : GroupDependency} (rest : List GroupDependency)
    (d : PackageDescriptor) (h : g.evaluated_condition = none) :
    processGroupDeps keys (g :: rest) d = (d, false) := by
  simp only [processGroupDeps, h]

theorem processGroupDeps_cons_true (keys : List Package)
    {g : GroupDependency} (rest : List GroupDependency)
    (d : PackageDescriptor) (h : g.evaluated_condition = some true) :
    processGroupDeps keys (g :: rest) d =
      processGroupDeps keys rest
        (addGroupMembers (extract_group_members g keys) d) := by
  simp only [processGroupDeps, h]

theorem processGroupDeps_cons_false (keys : List Package)
    {g : GroupDependency} (rest : List GroupDependency)
    (d : PackageDescriptor) (h : g.evaluated_condition = some false) :
    processGroupDeps keys (g :: rest) d = processGroupDeps keys rest d := by
  simp only [processGroupDeps, h]

theorem processGroupDeps_path (keys : List Package)
    (gds : List GroupDependency) (d : PackageDescriptor) :
    (processGroupDeps keys gds d).1.path = d.path := by
  induction gds generalizing d with
  | nil => rfl
  | cons g rest ih =>
    cases hg : g.evaluated_condition with
    | none => rw [processGroupDeps_cons_none keys rest d hg]
    | some c =>
      cases c with
      | false => rw [processGroupDeps_cons_false keys rest d hg]; exact ih d
      | true =>
        rw [processGroupDeps_cons_true keys rest d hg]
        rw [ih _]
        exact addGroupMembers_path _ _

theorem processGroupDeps_mem_build {dd : DependencyDescriptor}
    (keys : List Package) (gds : List GroupDependency)
    (d : PackageDescriptor) (h : dd ∈ d.dependencies.build) :
    dd ∈ (processGroupDeps keys gds d).1.dependencies.build := by
  induction gds generalizing d with
  | nil => exact h
  | cons g rest ih =>
    cases hg : g.evaluated_condition with
    | none => rw [processGroupDeps_cons_none keys rest d hg]; exact h
    | some c =>
      cases c with
      | false => rw [processGroupDeps_cons_false keys rest d hg]; exact ih _ h
      | true =>
        rw [processGroupDeps_cons_true keys rest d hg]
        exact ih _ (addGroupMembers_mem_build _ _ h)

theorem processGroupDeps_mem_run {dd : DependencyDescriptor}
    (keys : List Package) (gds : List GroupDependency)
    (d : PackageDescriptor) (h : dd ∈ d.dependencies.run) :
    dd ∈ (processGroupDeps keys gds d).1.dependencies.run := by
  induction gds generalizing d with
  | nil => exact h
  | cons g rest ih =>
    cases hg : g.evaluated_condition with
    | none => rw [processGroupDeps_cons_none keys rest d hg]; exact h
    | some c =>
      cases c with
      | false => rw [processGroupDeps_cons_false keys rest d hg]; exact ih _ h
      | true =>
        rw [processGroupDeps_cons_true keys rest d hg]
        exact ih _ (addGroupMembers_mem_run _ _ h)

theorem processGroupDeps_mem_test {dd : DependencyDescriptor}
    (keys : List Package) (gds : List GroupDependency)
    (d : PackageDescriptor) (h : dd ∈ d.dependencies.test) :
    dd ∈ (processGroupDeps keys gds d).1.dependencies.test := by
  induction gds generalizing d with
  | nil => exact h
  | cons g rest ih =>
    cases hg : g.evaluated_condition with
    | none => rw [processGroupDeps_cons_none keys rest d hg]; exact h
    | some c =>
      cases c with
      | false => rw [processGroupDeps_cons_false keys rest d hg]; exact ih _ h
      | true =>
        rw [processGroupDeps_cons_true keys rest d hg]
        rw [← addGroupMembers_test (extract_group_members g keys) d] at h
        exact ih _ h

theorem processGroupDeps_ok (keys : List Package)
    (gds : List GroupDependency) (d : PackageDescriptor)
    (h : ∀ g ∈ gds, (GroupDependency.evaluated_condition g).isSome) :
    (processGroupDeps keys gds d).2 = true := by
  induction gds generalizing d with
  | nil => rfl
  | cons g rest ih =>
    have hrest := fun x hx => h x (List.mem_cons_of_mem _ hx)
    cases hg : g.evaluated_condition with
    | none => exact absurd (h g (List.mem_cons_self _ _)) (by simp [hg])
    | some c =>
      cases c with
      | false => rw [processGroupDeps_cons_false keys rest d hg]; exact ih _ hrest
      | true => rw [processGroupDeps_cons_true keys rest d hg]; exact ih _ hrest

theorem processGroupDeps_adds (keys : List Package)
    (gds : List GroupDependency) (d : PackageDescriptor)
    (hall : ∀ g ∈ gds, (GroupDependency.evaluated_condition g).isSome)
    (g : GroupDependency) (hg : g ∈ gds)
    (hcond : g.evaluated_condition = some true)
    (n : String) (hn : n ∈ extract_group_members g keys) :
    nameIn n (processGroupDeps keys gds d).1.dependencies.build ∧
    nameIn n (processGroupDeps keys gds d).1.dependencies.run := by
  induction gds generalizing d with
  | nil => cases hg
  | cons g0 rest ih =>
    have hrest2 := fun x hx => hall x (List.mem_cons_of_mem _ hx)
    rcases List.mem_cons.mp hg with rfl | hrest
    · rw [processGroupDeps_cons_true keys rest d hcond]
      obtain ⟨hb, hr⟩ := addGroupMembers_adds n (extract_group_members g keys) d hn
      constructor
      · exact nameIn_mono (fun dd hdd => processGroupDeps_mem_build keys rest _ hdd) hb
      · exact nameIn_mono (fun dd hdd => processGroupDeps_mem_run keys rest _ hdd) hr
    · cases hg0 : g0.evaluated_condition with
      | none => exact absurd (hall g0 (List.mem_cons_self _ _)) (by simp [hg0])
      | some c =>
        cases c with
        | false =>
          rw [processGroupDeps_cons_false keys rest d hg0]
          exact ih _ hrest2 hrest
        | true =>
          rw [processGroupDeps_cons_true keys rest d hg0]
          exact ih _ hrest2 hrest

theorem processGroupDeps_unchanged (keys : List Package)
    (gds : List GroupDependency) (d : PackageDescriptor)
    (h : ∀ g ∈ gds, extract_group_members g keys = []) :
    (processGroupDeps keys gds d).1 = d := by
  induction gds generalizing d with
  | nil => rfl
  | cons g0 rest ih =>
    have hrest := fun x hx => h x (List.mem_cons_of_mem _ hx)
    cases hg0 : g0.evaluated_condition with
    | none => rw [processGroupDeps_cons_none keys rest d hg0]
    | some c =>
      cases c with
      | false => rw [processGroupDeps_cons_false keys rest d hg0]; exact ih _ hrest
      | true =>
        rw [processGroupDeps_cons_true keys rest d hg0,
          h g0 (List.mem_cons_self _ _)]
        exact ih _ hrest

/-- One descriptor grows into another: the path is unchanged and each of the
three dependency sets of the first is contained in that of the second. -/
def DepSetsGrow (s r : PackageDescriptor) : Prop :=
  r.path = s.path ∧
  (∀ dd ∈ s.dependencies.build, dd ∈ r.dependencies.build) ∧
  (∀ dd ∈ s.dependencies.run, dd ∈ r.dependencies.run) ∧
  (∀ dd ∈ s.dependencies.test, dd ∈ r.dependencies.test)

theorem DepSetsGrow.refl (s : PackageDescriptor) : DepSetsGrow s s :=
  ⟨rfl, fun _ h => h, fun _ h => h, fun _ h => h⟩

theorem DepSetsGrow.trans {a b c : PackageDescriptor}
    (h1 : DepSetsGrow a b) (h2 : DepSetsGrow b c) : DepSetsGrow a c :=
  ⟨h2.1.trans h1.1,
    fun dd hd => h2.2.1 dd (h1.2.1 dd hd),
    fun dd hd => h2.2.2.1 dd (h1.2.2.1 dd hd),
    fun dd hd => h2.2.2.2 dd (h1.2.2.2 dd hd)⟩

theorem forall2_grow_trans :
    ∀ {l m n : List PackageDescriptor},
      List.Forall₂ DepSetsGrow l m → List.Forall₂ DepSetsGrow m n →
      List.Forall₂ DepSetsGrow l n := by
  intro l m n h1 h2
  induction h1 generalizing n with
  | nil => cases h2; exact List.Forall₂.nil
  | cons hab htl ih =>
    cases h2 with
    | cons hbc htl2 => exact List.Forall₂.cons (DepSetsGrow.trans hab hbc) (ih htl2)

theorem forall2_grow_refl :
    ∀ (l : List PackageDescriptor), List.Forall₂ DepSetsGrow l l
  | [] => List.Forall₂.nil
  | d :: rest => List.Forall₂.cons (DepSetsGrow.refl d) (forall2_grow_refl rest)

theorem processGroupDeps_grows (keys : List Package)
    (gds : List GroupDependency) (d : PackageDescriptor) :
    DepSetsGrow d (processGroupDeps keys gds d).1 :=
  ⟨processGroupDeps_path keys gds d,
    fun _ hd => processGroupDeps_mem_build keys gds d hd,
    fun _ hd => processGroupDeps_mem_run keys gds d hd,
    fun _ hd => processGroupDeps_mem_test keys gds d hd⟩

theorem storeUpdate_grows (store : List PackageDescriptor) (p : String)
    (dnew : PackageDescriptor)
    (h : ∀ s ∈ store, s.path = p → DepSetsGrow s dnew) :
    List.Forall₂ DepSetsGrow store (storeUpdate store p dnew) := by
  induction store with
  | nil => exact List.Forall₂.nil
  | cons e rest ih =>
    rw [storeUpdate]
    refine List.Forall₂.cons ?_ (ih fun s hs hp => h s (List.mem_cons_of_mem _ hs) hp)
    by_cases hp : e.path = p
    · rw [if_pos hp]
      exact h e (List.mem_cons_self _ _) hp
    · rw [if_neg hp]
      exact DepSetsGrow.refl e

/-- The mapping values are exactly the current state of the descriptors with
their paths: a batch element with the path of a mapping value is that value. -/
def StoreAgrees (pkgs : List (Package × PackageDescriptor))
    (store : List PackageDescriptor) : Prop :=
  ∀ e ∈ pkgs, ∀ s ∈ store, s.path = e.2.path → s = e.2

theorem storeUpdate_mem {s : PackageDescriptor}
    (store : List PackageDescriptor) (p : String) (dnew : PackageDescriptor)
    (h : s ∈ storeUpdate store p dnew) :
    s = dnew ∨ (s ∈ store ∧ s.path ≠ p) := by
  induction store with
  | nil => cases h
  | cons e rest ih =>
    rw [storeUpdate] at h
    rcases List.mem_cons.mp h with rfl | hrest
    · by_cases hp : e.path = p
      · rw [if_pos hp]; exact Or.inl rfl
      · rw [if_neg hp]; exact Or.inr ⟨List.mem_cons_self _ _, hp⟩
    · rcases ih hrest with h1 | ⟨h1, h2⟩
      · exact Or.inl h1
      · exact Or.inr ⟨List.mem_cons_of_mem _ h1, h2⟩

theorem augLoop_grows (keys : List Package)
    (pkgs : List (Package × PackageDescriptor))
    (store : List PackageDescriptor)
    (hpaths : (pkgs.map (fun e => e.2.path)).Nodup)
    (hagree : StoreAgrees pkgs store) :
    List.Forall₂ DepSetsGrow store (augLoop keys pkgs store).1 := by
  induction pkgs generalizing store with
  | nil => exact forall2_grow_refl store
  | cons e rest ih =>
    obtain ⟨p0, d0⟩ := e
    rw [augLoop]
    have hstep : List.Forall₂ DepSetsGrow store
        (storeUpdate store d0.path (processGroupDeps keys p0.group_depends d0).1) := by
      refine storeUpdate_grows store d0.path _ (fun s hs hp => ?_)
      have hs0 : s = d0 := hagree (p0, d0) (List.mem_cons_self _ _) s hs hp
      rw [hs0]
      exact processGroupDeps_grows keys p0.group_depends d0
    have hrest_paths : (rest.map (fun e => e.2.path)).Nodup :=
      (List.nodup_cons.mp hpaths).2
    have hhead_notin : d0.path ∉ rest.map (fun e => e.2.path) :=
      (List.nodup_cons.mp hpaths).1
    have hagree' : StoreAgrees rest
        (storeUpdate store d0.path (processGroupDeps keys p0.group_depends d0).1) := by
      intro e2 he2 s hs hp
      rcases storeUpdate_mem store d0.path _ hs with rfl | ⟨hs1, _⟩
      · exfalso
        apply hhead_notin
        have hde : d0.path = e2.2.path :=
          (processGroupDeps_path keys p0.group_depends d0).symm.trans hp
        rw [hde]
        exact List.mem_map.mpr ⟨e2, he2, rfl⟩
      · exact hagree e2 (List.mem_cons_of_mem _ he2) s hs1 hp
    split
    · exact forall2_grow_trans hstep (ih _ hrest_paths hagree')
    · exact hstep

theorem dictInsertPkg_mem {e : Package × PackageDescriptor}
    (m : List (Package × PackageDescriptor)) (k : Package)
    (v : PackageDescriptor) (h : e ∈ dictInsertPkg m k v) :
    e ∈ m ∨ e = (k, v) := by
  induction m with
  | nil =>
    rw [dictInsertPkg] at h
    exact Or.inr (List.mem_singleton.mp h)
  | cons e0 rest ih =>
    rw [dictInsertPkg] at h
    split at h
    · rcases List.mem_cons.mp h with rfl | hrest
      · exact Or.inr rfl
      · exact Or.inl (List.mem_cons_of_mem _ hrest)
    · rcases List.mem_cons.mp h with rfl | hrest
      · exact Or.inl (List.mem_cons_self _ _)
      · rcases ih hrest with h1 | h1
        · exact Or.inl (List.mem_cons_of_mem _ h1)
        · exact Or.inr h1

theorem dictInsertPkg_mem_self (m : List (Package × PackageDescriptor))
    (k : Package) (v : PackageDescriptor) : (k, v) ∈ dictInsertPkg m k v := by
  induction m with
  | nil => rw [dictInsertPkg]; exact List.mem_singleton.mpr rfl
  | cons e0 rest ih =>
    rw [dictInsertPkg]
    split
    · exact List.mem_cons_self _ _
    · exact List.mem_cons_of_mem _ ih

theorem dictInsertPkg_mem_other {e : Package × PackageDescriptor}
    (m : List (Package × PackageDescriptor)) (k : Package)
    (v : PackageDescriptor) (h : e ∈ m) (hne : e.1 ≠ k) :
    e ∈ dictInsertPkg m k v := by
  induction m with
  | nil => cases h
  | cons e0 rest ih =>
    rw [dictInsertPkg]
    split
    · rename_i hk
      rcases List.mem_cons.mp h with rfl | hrest
      · exact absurd hk hne
      · exact List.mem_cons_of_mem _ hrest
    · rcases List.mem_cons.mp h with rfl | hrest
      · exact List.mem_cons_self _ _
      · exact List.mem_cons_of_mem _ (ih hrest)

theorem dictInsertPkg_paths_nodup
    (m : List (Package × PackageDescriptor)) (k : Package)
    (v : PackageDescriptor)
    (hpaths : (m.map (fun e => e.2.path)).Nodup)
    (hv : v.path ∉ m.map (fun e => e.2.path)) :
    ((dictInsertPkg m k v).map (fun e => e.2.path)).Nodup := by
  induction m with
  | nil => simp [dictInsertPkg]
  | cons e0 rest ih =>
    rw [dictInsertPkg]
    rw [List.map_cons, List.nodup_cons] at hpaths
    rw [List.map_cons, List.mem_cons] at hv
    push_neg at hv
    split
    · rw [List.map_cons, List.nodup_cons]
      exact ⟨hv.2, hpaths.2⟩
    · rw [List.map_cons, List.nodup_cons]
      constructor
      · intro hmem
        rcases List.mem_map.mp hmem with ⟨e1, he1, hpe⟩
        rcases dictInsertPkg_mem rest k v he1 with h1 | rfl
        · exact hpaths.1 (hpe ▸ List.mem_map.mpr ⟨e1, h1, rfl⟩)
        · exact hv.1 (by rw [hpe])
      · exact ih hpaths.2 hv.2

theorem buildPkgsAux_mem (c : Cache) (ds : List PackageDescriptor)
    (acc : List (Package × PackageDescriptor))
    (e : Package × PackageDescriptor) (h : e ∈ buildPkgsAux c ds acc) :
    e ∈ acc ∨ (e.2 ∈ ds ∧
      ∃ bt, cacheLookup c e.2.path = some (some e.1, bt)) := by
  induction ds generalizing acc with
  | nil => exact Or.inl h
  | cons d0 rest ih =>
    rw [buildPkgsAux] at h
    revert h
    split
    · intro h
      rcases ih _ h with h1 | ⟨h1, h2⟩
      · exact Or.inl h1
      · exact Or.inr ⟨List.mem_cons_of_mem _ h1, h2⟩
    · intro h
      rcases ih _ h with h1 | ⟨h1, h2⟩
      · exact Or.inl h1
      · exact Or.inr ⟨List.mem_cons_of_mem _ h1, h2⟩
    · rename_i pkg bt hlook
      intro h
      rcases ih _ h with h1 | ⟨h1, h2⟩
      · rcases dictInsertPkg_mem acc pkg d0 h1 with h3 | rfl
        · exact Or.inl h3
        · exact Or.inr ⟨List.mem_cons_self _ _, bt, hlook⟩
      · exact Or.inr ⟨List.mem_cons_of_mem _ h1, h2⟩

theorem buildPkgs_mem (c : Cache) (descs : List PackageDescriptor)
    (e : Package × PackageDescriptor) (h : e ∈ buildPkgs c descs) :
    e.2 ∈ descs ∧ ∃ bt, cacheLookup c e.2.path = some (some e.1, bt) := by
  rcases buildPkgsAux_mem c descs [] e h with h1 | h1
  · cases h1
  · exact h1

theorem buildPkgsAux_paths_nodup (c : Cache) (ds : List PackageDescriptor)
    (acc : List (Package × PackageDescriptor))
    (hpaths : (acc.map (fun e => e.2.path)).Nodup)
    (hdisj : ∀ e ∈ acc, e.2.path ∉ ds.map (fun d => d.path))
    (hnd : (ds.map (fun d => d.path)).Nodup) :
    ((buildPkgsAux c ds acc).map (fun e => e.2.path)).Nodup := by
  induction ds generalizing acc with
  | nil => exact hpaths
  | cons d0 rest ih =>
    rw [List.map_cons, List.nodup_cons] at hnd
    rw [buildPkgsAux]
    have hdisj0 : ∀ e ∈ acc, e.2.path ∉ rest.map (fun d => d.path) := by
      intro e he hmem
      exact hdisj e he (by rw [List.map_cons]; exact List.mem_cons_of_mem _ hmem)
    split
    · exact ih _ hpaths hdisj0 hnd.2
    · exact ih _ hpaths hdisj0 hnd.2
    · rename_i pkg bt hlook
      refine ih _ ?_ ?_ hnd.2
      · refine dictInsertPkg_paths_nodup acc pkg d0 hpaths ?_
        intro hmem
        rcases List.mem_map.mp hmem with ⟨e1, he1, hpe⟩
        exact hdisj e1 he1 (by
          rw [List.map_cons]
          exact hpe ▸ List.mem_cons_self _ _)
      · intro e he hmem
        rcases dictInsertPkg_mem acc pkg d0 he with h1 | rfl
        · exact hdisj0 e h1 hmem
        · exact hnd.1 hmem

theorem buildPkgs_paths_nodup (c : Cache) (descs : List PackageDescriptor)
    (hnd : (descs.map (fun d => d.path)).Nodup) :
    ((buildPkgs c descs).map (fun e => e.2.path)).Nodup := by
  refine buildPkgsAux_paths_nodup c descs [] (by simp) ?_ hnd
  intro e he
  cases he

theorem buildPkgsAux_preserves (c : Cache) (ds : List PackageDescriptor)
    (acc : List (Package × PackageDescriptor)) (pkg : Package)
    (desc : PackageDescriptor) (hin : (pkg, desc) ∈ acc)
    (hno : ∀ d' ∈ ds, ∀ bt',
      cacheLookup c d'.path = some (some pkg, bt') → False) :
    (pkg, desc) ∈ buildPkgsAux c ds acc := by
  induction ds generalizing acc with
  | nil => exact hin
  | cons d0 rest ih =>
    have hno0 := fun d' hd' => hno d' (List.mem_cons_of_mem _ hd')
    rw [buildPkgsAux]
    split
    · exact ih _ hin hno0
    · exact ih _ hin hno0
    · rename_i pkg0 bt0 hlook
      refine ih _ ?_ hno0
      refine dictInsertPkg_mem_other acc pkg0 d0 hin ?_
      intro hk
      exact hno d0 (List.mem_cons_self _ _) bt0 (by rw [← hk] at hlook; exact hlook)

theorem buildPkgsAux_adds (c : Cache) (ds : List PackageDescriptor)
    (acc : List (Package × PackageDescriptor)) (desc : PackageDescriptor)
    (pkg : Package) (bt : Option String)
    (hdesc : desc ∈ ds)
    (hlook : cacheLookup c desc.path = some (some pkg, bt))
    (huniq : ∀ d' ∈ ds, ∀ bt',
      cacheLookup c d'.path = some (some pkg, bt') → d' = desc)
    (hnd : (ds.map (fun d => d.path)).Nodup) :
    (pkg, desc) ∈ buildPkgsAux c ds acc := by
  induction ds generalizing acc with
  | nil => cases hdesc
  | cons d0 rest ih =>
    rw [List.map_cons, List.nodup_cons] at hnd
    rcases List.mem_cons.mp hdesc with rfl | hrest
    · rw [buildPkgsAux, hlook]
      refine buildPkgsAux_preserves c rest _ pkg desc
        (dictInsertPkg_mem_self acc pkg desc) ?_
      intro d' hd' bt' hlook'
      have : d' = desc := huniq d' (List.mem_cons_of_mem _ hd') bt' hlook'
      subst this
      exact hnd.1 (List.mem_map.mpr ⟨d', hd', rfl⟩)
    · have huniq' : ∀ d' ∈ rest, ∀ bt',
          cacheLookup c d'.path = some (some pkg, bt') → d' = desc :=
        fun d' hd' => huniq d' (List.mem_cons_of_mem _ hd')
      rw [buildPkgsAux]
      split
      · exact ih _ hrest huniq' hnd.2
      · exact ih _ hrest huniq' hnd.2
      · exact ih _ hrest huniq' hnd.2

theorem forall2_grow_mem_left {l m : List PackageDescriptor}
    (h : List.Forall₂ DepSetsGrow l m) {a : PackageDescriptor} (ha : a ∈ l) :
    ∃ b ∈ m, DepSetsGrow a b := by
  induction h with
  | nil => cases ha
  | cons hab htl ih =>
    rcases List.mem_cons.mp ha with rfl | hrest
    · exact ⟨_, List.mem_cons_self _ _, hab⟩
    · obtain ⟨b, hb, hgrow⟩ := ih hrest
      exact ⟨b, List.mem_cons_of_mem _ hb, hgrow⟩

theorem storeUpdate_mem_path {s : PackageDescriptor}
    (store : List PackageDescriptor) (p : String) (dnew : PackageDescriptor)
    (h : s ∈ storeUpdate store p dnew) (hp : s.path = p) : s = dnew := by
  rcases storeUpdate_mem store p dnew h with h1 | ⟨_, h2⟩
  · exact h1
  · exact absurd hp h2

theorem augLoop_untouched (keys : List Package)
    (pkgs : List (Package × PackageDescriptor))
    (store : List PackageDescriptor) (q : String)
    (hq : ∀ e ∈ pkgs, e.2.path ≠ q) :
    ∀ s ∈ (augLoop keys pkgs store).1, s.path = q → s ∈ store := by
  induction pkgs generalizing store with
  | nil => exact fun s hs _ => hs
  | cons e rest ih =>
    obtain ⟨p0, d0⟩ := e
    rw [augLoop]
    have hq0 := fun e' he' => hq e' (List.mem_cons_of_mem _ he')
    split
    · intro s hs hp
      have hs2 := ih _ hq0 s hs hp
      rcases storeUpdate_mem store d0.path _ hs2 with rfl | ⟨h1, _⟩
      · exfalso
        apply hq (p0, d0) (List.mem_cons_self _ _)
        rw [← hp, processGroupDeps_path]
      · exact h1
    · intro s hs hp
      rcases storeUpdate_mem store d0.path _ hs with rfl | ⟨h1, _⟩
      · exfalso
        apply hq (p0, d0) (List.mem_cons_self _ _)
        rw [← hp, processGroupDeps_path]
      · exact h1

theorem augLoop_value (keys : List Package)
    (pkgs : List (Package × PackageDescriptor))
    (store : List PackageDescriptor) (pkg : Package)
    (desc : PackageDescriptor)
    (hpaths : (pkgs.map (fun e => e.2.path)).Nodup)
    (hagree : StoreAgrees pkgs store)
    (hok : ∀ e ∈ pkgs, ∀ g ∈ e.1.group_depends,
      (GroupDependency.evaluated_condition g).isSome)
    (hin : (pkg, desc) ∈ pkgs) :
    ∀ s ∈ (augLoop keys pkgs store).1, s.path = desc.path →
      s = (processGroupDeps keys pkg.group_depends desc).1 := by
  induction pkgs generalizing store with
  | nil => cases hin
  | cons e rest ih =>
    obtain ⟨p0, d0⟩ := e
    rw [List.map_cons, List.nodup_cons] at hpaths
    have hok0 : (processGroupDeps keys p0.group_depends d0).2 = true :=
      processGroupDeps_ok keys p0.group_depends d0
        (hok (p0, d0) (List.mem_cons_self _ _))
    rw [augLoop]
    rw [if_pos hok0]
    have hagree' : StoreAgrees rest
        (storeUpdate store d0.path (processGroupDeps keys p0.group_depends d0).1) := by
      intro e2 he2 s hs hp
      rcases storeUpdate_mem store d0.path _ hs with rfl | ⟨hs1, _⟩
      · exfalso
        apply hpaths.1
        have hde : d0.path = e2.2.path :=
          (processGroupDeps_path keys p0.group_depends d0).symm.trans hp
        rw [hde]
        exact List.mem_map.mpr ⟨e2, he2, rfl⟩
      · exact hagree e2 (List.mem_cons_of_mem _ he2) s hs1 hp
    rcases List.mem_cons.mp hin with heq | hrest
    · have hp0 : p0 = pkg := (Prod.mk.injEq _ _ _ _ ▸ heq.symm).1
      have hd0 : d0 = desc := (Prod.mk.injEq _ _ _ _ ▸ heq.symm).2
      subst hp0; subst hd0
      intro s hs hp
      have hs2 : s ∈ storeUpdate store d0.path
          (processGroupDeps keys p0.group_depends d0).1 := by
        refine augLoop_untouched keys rest _ d0.path ?_ s hs hp
        intro e' he' hpe
        exact hpaths.1 (hpe ▸ List.mem_map.mpr ⟨e', he', rfl⟩)
      exact storeUpdate_mem_path _ _ _ hs2 hp
    · exact ih _ hpaths.2 hagree'
        (fun e' he' => hok e' (List.mem_cons_of_mem _ he')) hrest

theorem identifyMain_grows (c' : Cache) (desc : PackageDescriptor)
    (pkg : Package) (bt : String) :
    DepSetsGrow desc (identifyMain c' desc pkg bt).desc := by
  unfold identifyMain
  dsimp only
  split
  · exact ⟨rfl, fun dd hd => addDeps_mono _ _ hd, fun _ h => h, fun _ h => h⟩
  · split
    · exact ⟨rfl, fun dd hd => addDeps_mono _ _ hd,
        fun dd hd => addDeps_mono _ _ hd, fun _ h => h⟩
    · split
      · exact ⟨rfl, fun dd hd => addDeps_mono _ _ hd,
          fun dd hd => addDeps_mono _ _ hd, fun dd hd => addDeps_mono _ _ hd⟩
      · exact ⟨rfl, fun dd hd => addDeps_mono _ _ hd,
          fun dd hd => addDeps_mono _ _ hd, fun dd hd => addDeps_mono _ _ hd⟩

theorem identify_desc_shape (w : World) (c : Cache) (desc : PackageDescriptor) :
    (identify w c desc).desc = desc ∨
    ∃ pkg bt c', (identify w c desc).desc = (identifyMain c' desc pkg bt).desc := by
  unfold identify
  split
  · exact Or.inl rfl
  · split
    · exact Or.inl rfl
    · split
      · exact Or.inl rfl
      · split
        · exact Or.inl rfl
        · split
          · split
            · split
              · exact Or.inl rfl
              · exact Or.inl rfl
            · split
              · exact Or.inl rfl
              · exact Or.inr ⟨_, _, _, rfl⟩
          · split
            · exact Or.inl rfl
            · exact Or.inl rfl

theorem identify_grows (w : World) (c : Cache) (desc : PackageDescriptor) :
    DepSetsGrow desc (identify w c desc).desc := by
  rcases identify_desc_shape w c desc with h | ⟨pkg, bt, c', h⟩
  · rw [h]; exact DepSetsGrow.refl desc
  · rw [h]; exact identifyMain_grows c' desc pkg bt

theorem forall2_grow_set :
    ∀ (l : List PackageDescriptor) (i : Nat) (d : PackageDescriptor),
    (∀ (h : i < l.length), DepSetsGrow (l.get ⟨i, h⟩) d) →
    List.Forall₂ DepSetsGrow l (l.set i d) := by
  intro l
  induction l with
  | nil => intro i d _; exact List.Forall₂.nil
  | cons a rest ih =>
    intro i d hgrow
    cases i with
    | zero =>
      rw [List.set_cons_zero]
      exact List.Forall₂.cons (hgrow (by simp)) (forall2_grow_refl rest)
    | succ j =>
      rw [List.set_cons_succ]
      refine List.Forall₂.cons (DepSetsGrow.refl a) (ih j d ?_)
      intro h
      have := hgrow (by simpa using Nat.succ_lt_succ h)
      simpa using this

theorem forall2_grow_paths {l m : List PackageDescriptor}
    (h : List.Forall₂ DepSetsGrow l m) :
    m.map (fun d => d.path) = l.map (fun d => d.path) := by
  induction h with
  | nil => rfl
  | cons hab htl ih =>
    rw [List.map_cons, List.map_cons, ih, hab.1]

theorem nodup_path_eq {l : List PackageDescriptor}
    (hnd : (l.map (fun d => d.path)).Nodup)
    {a b : PackageDescriptor} (ha : a ∈ l) (hb : b ∈ l)
    (hp : a.path = b.path) : a = b := by
  induction l with
  | nil => cases ha
  | cons e rest ih =>
    rw [List.map_cons, List.nodup_cons] at hnd
    rcases List.mem_cons.mp ha with rfl | ha2
    · rcases List.mem_cons.mp hb with rfl | hb2
      · rfl
      · exact absurd (hp ▸ List.mem_map.mpr ⟨b, hb2, rfl⟩) hnd.1
    · rcases List.mem_cons.mp hb with rfl | hb2
      · exact absurd (hp ▸ List.mem_map.mpr ⟨a, ha2, rfl⟩) hnd.1
      · exact ih hnd.2 ha2 hb2

theorem scanStep_grows (w : World) {s t : ScanState}
    (hnd : (s.descs.map (fun d => d.path)).Nodup) (hst : ScanStep w s t) :
    List.Forall₂ DepSetsGrow s.descs t.descs := by
  cases hst with
  | identifyAt i =>
    refine forall2_grow_set s.descs i _ (fun h => ?_)
    exact identify_grows w s.cache (s.descs.get ⟨i, h⟩)
  | augment =>
    show List.Forall₂ DepSetsGrow s.descs (augment_packages s.cache s.descs).1
    unfold augment_packages
    refine augLoop_grows _ _ _ (buildPkgs_paths_nodup s.cache s.descs hnd) ?_
    intro e he s' hs' hp
    exact nodup_path_eq hnd hs' (buildPkgs_mem s.cache s.descs e he).1 hp

/-- Log severity of a record. -/
inductive LogLevel where
  | error
  | warning
deriving DecidableEq, Repr

/-- Severity of each log record this module can emit. -/
def LogEntry.level : LogEntry → LogLevel
  | .errorMissingSetupPy _ _ => .error

/- Concrete fixtures used by the witnesses below. -/

def depTrue : Dependency := { name := "depA" }

def depFalse : Dependency := { name := "depB", condition := some false }

def pkgAlpha : Package :=
  { name := "alpha", version := "1.0", build_depends := [depTrue],
    exec_depends := [depFalse], build_type_exports := ["ament_cmake"] }

def wAlpha : World :=
  { pathExists := fun _ => false, is_file := fun _ => false,
    package_exists_at := fun p => p = "/ws/alpha",
    parse_package := fun p =>
      if p = "/ws/alpha" then .ok pkgAlpha else .invalidPackage }

def descAlpha : PackageDescriptor := { path := "/ws/alpha" }

def descAlphaForeign : PackageDescriptor :=
  { path := "/ws/alpha", type := some "cmake" }

/-- Counterexample to C1 as frozen: the path of this descriptor has a
manifest with the build type ament_cmake and a build-depend with a true
evaluated condition, yet identify routes nothing — the descriptor was
already identified with the foreign type cmake, so the foreign-type guard
returns before the manifest is consulted, the descriptor is unchanged and
its build set does not receive the dependency name the claim requires. -/
theorem ros_c1_counterexample :
    get_build_type pkgAlpha = .ok "ament_cmake" ∧
    trueDepName "depA" ((evaluate_conditions pkgAlpha).build_depends ++
      (evaluate_conditions pkgAlpha).buildtool_depends) ∧
    (identify wAlpha [] descAlphaForeign).desc = descAlphaForeign ∧
    ¬ nameIn "depA"
      (identify wAlpha [] descAlphaForeign).desc.dependencies.build := by
  refine ⟨rfl, by decide, by decide, by decide⟩

/-- Claim C1 (amended): for every descriptor whose path has a manifest with
a build type and that reaches the dependency extraction step (type unset or
ros, no ignore markers, and the companion file present when the build type
requires it), identify routes dependencies by category: a name lands in the build set
iff it was already there or appears with a true evaluated condition among
build-depends plus buildtool-depends; run likewise from build-export plus
buildtool-export plus exec-depends; test from test-depends; so a dependency
whose evaluated condition is false is added to no set. -/
theorem ros_c1_identify_routes_dependencies
    (w : World) (c : Cache) (desc : PackageDescriptor) (pkg : Package)
    (bt : String) (c' : Cache)
    (hty : desc.type = none ∨ desc.type = some "ros")
    (hci : w.pathExists (desc.path ++ "/CATKIN_IGNORE") = false)
    (hai : w.pathExists (desc.path ++ "/AMENT_IGNORE") = false)
    (hlook : get_package_with_build_type w c desc.path =
      .ok (some pkg) (some bt) c')
    (heval : PkgEvaluated pkg)
    (hbt : bt ≠ "")
    (hsetup : bt = "ament_python" → w.is_file (desc.path ++ "/setup.py") = true) :
    (∀ n, nameIn n (identify w c desc).desc.dependencies.build ↔
      (nameIn n desc.dependencies.build ∨
        trueDepName n (pkg.build_depends ++ pkg.buildtool_depends))) ∧
    (∀ n, nameIn n (identify w c desc).desc.dependencies.run ↔
      (nameIn n desc.dependencies.run ∨
        trueDepName n (pkg.build_export_depends ++
          pkg.buildtool_export_depends ++ pkg.exec_depends))) ∧
    (∀ n, nameIn n (identify w c desc).desc.dependencies.test ↔
      (nameIn n desc.dependencies.test ∨ trueDepName n pkg.test_depends)) := by
  rw [identify_eq_main w c desc pkg bt c' hty hci hai hlook hbt hsetup]
  refine ⟨fun n => ?_, fun n => ?_, fun n => ?_⟩
  · rw [identifyMain_build]
    exact nameIn_addDeps _ _ heval.buildLists n
  · rw [identifyMain_run _ _ _ _ heval.buildLists]
    exact nameIn_addDeps _ _ heval.runLists n
  · rw [identifyMain_test _ _ _ _ heval.buildLists heval.runLists]
    exact nameIn_addDeps _ _ heval.testList n

/-- Witness for C1 at a concrete world: one build-depend with a true
condition ends up in the build set, one exec-depend with a false condition
is in no set. -/
theorem ros_c1_identify_routes_dependencies_witness :
    nameIn "depA" (identify wAlpha [] descAlpha).desc.dependencies.build ∧
    ¬ nameIn "depB" (identify wAlpha [] descAlpha).desc.dependencies.run := by
  have h := ros_c1_identify_routes_dependencies wAlpha [] descAlpha
    (evaluate_conditions pkgAlpha) "ament_cmake"
    [("/ws/alpha", (some (evaluate_conditions pkgAlpha), some "ament_cmake"))]
    (Or.inl rfl) rfl rfl (by decide)
    (evaluate_conditions_evaluated pkgAlpha) (by decide) (by decide)
  constructor
  · exact (h.1 "depA").mpr (Or.inr (by decide))
  · intro hmem
    rcases (h.2.1 "depB").mp hmem with h1 | h1
    · exact absurd h1 (by decide)
    · exact absurd h1 (by decide)

def wEmptyFs : World :=
  { pathExists := fun _ => false, is_file := fun _ => false,
    package_exists_at := fun _ => false,
    parse_package := fun _ => .invalidPackage }

def descPlain : PackageDescriptor := { path := "/ws/plain" }

/-- Claim C4: for every descriptor whose path contains no manifest (and no
legacy manifest.xml and no ignore marker, with its type unset or the family
tag, on a first visit or after a cached absent result), identify returns
normally and leaves the descriptor exactly as it was. -/
theorem ros_c4_no_manifest_unmodified
    (w : World) (c : Cache) (desc : PackageDescriptor)
    (hty : desc.type = none ∨ desc.type = some "ros")
    (hci : w.pathExists (desc.path ++ "/CATKIN_IGNORE") = false)
    (hai : w.pathExists (desc.path ++ "/AMENT_IGNORE") = false)
    (hms : w.pathExists (desc.path ++ "/manifest.xml") = false)
    (hnopkg : w.package_exists_at desc.path = false)
    (hcache : cacheLookup c desc.path = none ∨
      cacheLookup c desc.path = some (none, none)) :
    (identify w c desc).desc = desc ∧ (identify w c desc).signal = .normal := by
  have habs : _get_package w desc.path = none := by
    unfold _get_package
    rw [hnopkg]
    simp
  rcases hcache with hcl | hcl
  · rw [identify_absent w c desc none none _ hty hci hai
      (gpwbt_miss_absent w c desc.path hcl habs) (Or.inl rfl)]
    rw [hms]
    exact ⟨rfl, rfl⟩
  · rw [identify_absent w c desc none none _ hty hci hai
      (gpwbt_hit w c desc.path (none, none) hcl) (Or.inl rfl)]
    rw [hms]
    exact ⟨rfl, rfl⟩

/-- Witness for C4 at a concrete world with no files at all. -/
theorem ros_c4_no_manifest_unmodified_witness :
    (identify wEmptyFs [] descPlain).desc = descPlain ∧
    (identify wEmptyFs [] descPlain).signal = .normal :=
  ros_c4_no_manifest_unmodified wEmptyFs [] descPlain
    (Or.inl rfl) rfl rfl rfl rfl (Or.inl rfl)

def wMarker : World :=
  { pathExists := fun p => p = "/ws/skip/CATKIN_IGNORE",
    is_file := fun _ => false,
    package_exists_at := fun _ => false,
    parse_package := fun _ => .invalidPackage }

def descSkipForeign : PackageDescriptor :=
  { path := "/ws/skip", type := some "cmake" }

def descSkip : PackageDescriptor := { path := "/ws/skip" }

/-- Counterexample to C5 as stated: a descriptor already typed by a foreign
identifier (type cmake) sits in a directory with a CATKIN_IGNORE marker, yet
identify returns normally instead of signalling SkipLocation, because the
foreign-type guard runs before the marker check. -/
theorem ros_c5_counterexample :
    wMarker.pathExists ("/ws/skip" ++ "/CATKIN_IGNORE") = true ∧
    (identify wMarker [] descSkipForeign).signal = .normal ∧
    (identify wMarker [] descSkipForeign).signal ≠ .skip := by
  refine ⟨by decide, by decide, by decide⟩

/-- Claim C5 (amended): for every descriptor whose type is unset or the
family tag and whose directory directly contains either of the two
recognized ignore-marker files, identify signals SkipLocation and leaves the
descriptor unmodified. -/
theorem ros_c5_ignore_marker_skips
    (w : World) (c : Cache) (desc : PackageDescriptor)
    (hty : desc.type = none ∨ desc.type = some "ros")
    (hmk : w.pathExists (desc.path ++ "/CATKIN_IGNORE") = true ∨
      w.pathExists (desc.path ++ "/AMENT_IGNORE") = true) :
    identify w c desc = ⟨desc, c, [], .skip⟩ := by
  by_cases hci : w.pathExists (desc.path ++ "/CATKIN_IGNORE") = true
  · exact identify_catkin_ignore w c desc hty hci
  · have hcif : w.pathExists (desc.path ++ "/CATKIN_IGNORE") = false := by
      simpa using hci
    rcases hmk with h | h
    · exact absurd h hci
    · exact identify_ament_ignore w c desc hty hcif h

/-- Witness for amended C5 at a concrete world with a CATKIN_IGNORE file. -/
theorem ros_c5_ignore_marker_skips_witness :
    identify wMarker [] descSkip =
      ⟨descSkip, [], [], .skip⟩ :=
  ros_c5_ignore_marker_skips wMarker [] descSkip (Or.inl rfl)
    (Or.inl (by decide))

def pkgPy : Package := { name := "beta", build_type_exports := ["ament_python"] }

def wPyNoSetup : World :=
  { pathExists := fun _ => false, is_file := fun _ => false,
    package_exists_at := fun p => p = "/ws/beta",
    parse_package := fun p =>
      if p = "/ws/beta" then .ok pkgPy else .invalidPackage }

def descBetaForeign : PackageDescriptor :=
  { path := "/ws/beta", type := some "cmake" }

def descBeta : PackageDescriptor := { path := "/ws/beta" }

/-- Counterexample to C6 as stated: a manifest that classifies to
ament_python with no setup.py file, but the descriptor was already typed by
a foreign identifier; identify returns normally with no log and no skip,
because the foreign-type guard runs before the manifest is even consulted. -/
theorem ros_c6_counterexample :
    get_build_type pkgPy = .ok "ament_python" ∧
    wPyNoSetup.is_file ("/ws/beta" ++ "/setup.py") = false ∧
    (identify wPyNoSetup [] descBetaForeign).log = [] ∧
    (identify wPyNoSetup [] descBetaForeign).signal = .normal := by
  refine ⟨rfl, by decide, by decide, by decide⟩

/-- Claim C6 (amended): for every descriptor that reaches the manifest stage
(type unset or the family tag, no ignore markers) and classifies to
ament_python while no setup.py file exists, identify emits exactly one log
record, an error-level record carrying the path and the build type, signals
SkipLocation, and leaves the descriptor unmodified (in particular its type
is not set). -/
theorem ros_c6_missing_companion_logs_and_skips
    (w : World) (c : Cache) (desc : PackageDescriptor) (pkg : Package)
    (c' : Cache)
    (hty : desc.type = none ∨ desc.type = some "ros")
    (hci : w.pathExists (desc.path ++ "/CATKIN_IGNORE") = false)
    (hai : w.pathExists (desc.path ++ "/AMENT_IGNORE") = false)
    (hlook : get_package_with_build_type w c desc.path =
      .ok (some pkg) (some "ament_python") c')
    (hsetup : w.is_file (desc.path ++ "/setup.py") = false) :
    (identify w c desc).log =
      [.errorMissingSetupPy desc.path "ament_python"] ∧
    (∀ e ∈ (identify w c desc).log, e.level = .error) ∧
    (identify w c desc).signal = .skip ∧
    (identify w c desc).desc = desc := by
  rw [identify_missing_setup_py w c desc pkg c' hty hci hai hlook hsetup]
  refine ⟨rfl, ?_, rfl, rfl⟩
  intro e he
  rcases List.mem_singleton.mp he with rfl
  rfl

/-- Witness for amended C6 at a concrete ament_python package without a
setup.py file. -/
theorem ros_c6_missing_companion_witness :
    (identify wPyNoSetup [] descBeta).log =
      [.errorMissingSetupPy "/ws/beta" "ament_python"] ∧
    (identify wPyNoSetup [] descBeta).signal = .skip ∧
    (identify wPyNoSetup [] descBeta).desc = descBeta := by
  have h := ros_c6_missing_companion_logs_and_skips wPyNoSetup [] descBeta
    (evaluate_conditions pkgPy)
    [("/ws/beta", (some (evaluate_conditions pkgPy), some "ament_python"))]
    (Or.inl rfl) rfl rfl (by decide) rfl
  exact ⟨h.1, h.2.2.1, h.2.2.2⟩

def wBadParse : World :=
  { pathExists := fun _ => false, is_file := fun _ => false,
    package_exists_at := fun p => p = "/ws/bad",
    parse_package := fun _ => .invalidPackage }

def descBad : PackageDescriptor := { path := "/ws/bad" }

/-- Claim C7: when a manifest exists but parsing fails with either of the
two caught failure kinds, the loader returns absent, and identify (on a
first visit of the path) treats the path as having no package: the
descriptor is unmodified and no exception escapes (the signal is a normal
return or a SkipLocation, never the assertion or key errors). -/
theorem ros_c7_parse_failure_is_soft
    (w : World) (c : Cache) (desc : PackageDescriptor)
    (hfail : w.parse_package desc.path = .invalidPackage ∨
      w.parse_package desc.path = .assertionError)
    (hcl : cacheLookup c desc.path = none) :
    _get_package w desc.path = none ∧
    (identify w c desc).desc = desc ∧
    (identify w c desc).signal ≠ .keyError ∧
    (identify w c desc).signal ≠ .assertError := by
  have habs : _get_package w desc.path = none := by
    unfold _get_package
    split
    · rfl
    · rcases hfail with h | h <;> rw [h]
  refine ⟨habs, ?_⟩
  by_cases h1 : desc.type ≠ none ∧ desc.type ≠ some "ros"
  · rw [identify_foreign_type w c desc h1]
    exact ⟨rfl, by simp, by simp⟩
  · rw [not_and_or, not_not, not_not] at h1
    by_cases h2 : w.pathExists (desc.path ++ "/CATKIN_IGNORE") = true
    · rw [identify_catkin_ignore w c desc h1 h2]
      exact ⟨rfl, by simp, by simp⟩
    · have h2f : w.pathExists (desc.path ++ "/CATKIN_IGNORE") = false := by
        simpa using h2
      by_cases h3 : w.pathExists (desc.path ++ "/AMENT_IGNORE") = true
      · rw [identify_ament_ignore w c desc h1 h2f h3]
        exact ⟨rfl, by simp, by simp⟩
      · have h3f : w.pathExists (desc.path ++ "/AMENT_IGNORE") = false := by
          simpa using h3
        rw [identify_absent w c desc none none _ h1 h2f h3f
          (gpwbt_miss_absent w c desc.path hcl habs) (Or.inl rfl)]
        split
        · exact ⟨rfl, by simp, by simp⟩
        · exact ⟨rfl, by simp, by simp⟩

/-- Witness for C7 at a concrete world whose parser rejects the manifest. -/
theorem ros_c7_parse_failure_is_soft_witness :
    _get_package wBadParse "/ws/bad" = none ∧
    (identify wBadParse [] descBad).desc = descBad ∧
    (identify wBadParse [] descBad).signal ≠ .keyError ∧
    (identify wBadParse [] descBad).signal ≠ .assertError :=
  ros_c7_parse_failure_is_soft wBadParse [] descBad (Or.inl rfl) rfl

theorem mem_boundEntry (key : String) (o : Option String) (k v : String) :
    (k, v) ∈ boundEntry key o ↔ (k = key ∧ o = some v) := by
  cases o with
  | none => simp [boundEntry]
  | some x =>
    simp only [boundEntry, List.mem_singleton, Prod.mk.injEq,
      Option.some_inj]
    constructor
    · rintro ⟨rfl, rfl⟩; exact ⟨rfl, rfl⟩
    · rintro ⟨rfl, rfl⟩; exact ⟨rfl, rfl⟩

/-- Claim C8: the metadata extracted for a dependency contains exactly those
of the five version bound keys whose attribute is non-null — a pair is in
the metadata iff it is one of the five keys paired with the value of its
non-null attribute — and a dependency declared only with a lower bound of
1.2 yields exactly the single binding version_gte to 1.2. -/
theorem ros_c8_version_bound_metadata :
    (∀ (d : Dependency) (k v : String),
      (k, v) ∈ _create_metadata d ↔
        ((k = "version_lte" ∧ d.version_lte = some v) ∨
         (k = "version_lt" ∧ d.version_lt = some v) ∨
         (k = "version_gte" ∧ d.version_gte = some v) ∨
         (k = "version_gt" ∧ d.version_gt = some v) ∨
         (k = "version_eq" ∧ d.version_eq = some v))) ∧
    _create_metadata { name := "x", version_gte := some "1.2" } =
      [("version_gte", "1.2")] := by
  constructor
  · intro d k v
    simp only [_create_metadata, List.mem_append, mem_boundEntry]
    tauto
  · rfl

/-- Claim C9: identify never overwrites a descriptor name that is already
set, whatever the world, the cache and the manifest declare; the manifest
name can be adopted only when the name was unset. -/
theorem ros_c9_preset_name_kept
    (w : World) (c : Cache) (desc : PackageDescriptor) (n : String)
    (hname : desc.name = some n) :
    (identify w c desc).desc.name = some n := by
  rcases identify_desc_shape w c desc with h | ⟨pkg, bt, c', h⟩
  · rw [h]; exact hname
  · rw [h, identifyMain_name, hname]
    simp

def descNamed : PackageDescriptor :=
  { path := "/ws/alpha", name := some "custom" }

/-- Witness for C9: a descriptor with a pre-set name keeps it although the
manifest at its path declares the different name alpha. -/
theorem ros_c9_preset_name_kept_witness :
    pkgAlpha.name = "alpha" ∧ descNamed.name = some "custom" ∧
    (identify wAlpha [] descNamed).desc.name = some "custom" :=
  ⟨rfl, rfl, ros_c9_preset_name_kept wAlpha [] descNamed "custom" rfl⟩

def pkgTwoBT : Package :=
  { name := "twobt", build_type_exports := ["ament_cmake", "ament_python"] }

def wTwoBT : World :=
  { pathExists := fun _ => false, is_file := fun _ => false,
    package_exists_at := fun p => p = "/ws/two",
    parse_package := fun p =>
      if p = "/ws/two" then .ok pkgTwoBT else .invalidPackage }

def descTwo : PackageDescriptor := { path := "/ws/two" }

/-- Claim C3, evaluated at the failing input: for a path whose manifest
parses but declares two build types, the first lookup does not store the
pair (package, absent build type) as the claim requires; instead the
InvalidPackage handler in _get_build_type raises KeyError while formatting
its warning (the message references a variable path that is not in scope),
nothing is cached, and identify propagates the KeyError, so a second lookup
would parse the manifest again. -/
theorem ros_c3_multi_build_type_keyerror :
    get_package_with_build_type wTwoBT [] "/ws/two" = .keyError ∧
    (identify wTwoBT [] descTwo).signal = .keyError ∧
    (identify wTwoBT [] descTwo).cache = [] := by
  refine ⟨by decide, by decide, by decide⟩

/-- Claim C2: in a batch of descriptors with distinct paths, for every
descriptor whose path has a cached non-absent package (the cached package
determining its descriptor uniquely, as distinct cache entries are distinct
parsed objects) and for every group dependency of that package whose
evaluated condition is true, augment adds every member name resolved against
the batch mapping to both the build and the run set of the declaring
descriptor; every member name is the name of a mapped package, so members
outside the batch are invisible, and if every group of the package resolves
to no members the dependency sets of the declaring descriptor are unchanged. -/
theorem ros_c2_group_members_added
    (cache : Cache) (descs : List PackageDescriptor)
    (desc : PackageDescriptor) (pkg : Package) (bt : Option String)
    (g : GroupDependency)
    (hnd : (descs.map (fun d => d.path)).Nodup)
    (hdesc : desc ∈ descs)
    (hlook : cacheLookup cache desc.path = some (some pkg, bt))
    (huniq : ∀ d' ∈ descs, ∀ bt',
      cacheLookup cache d'.path = some (some pkg, bt') → d' = desc)
    (hwf : CacheWF cache)
    (hg : g ∈ pkg.group_depends)
    (hcond : g.evaluated_condition = some true) :
    ∃ d' ∈ (augment_packages cache descs).1,
      d'.path = desc.path ∧
      (∀ n ∈ extract_group_members g
          ((buildPkgs cache descs).map (fun e => e.1)),
        nameIn n d'.dependencies.build ∧ nameIn n d'.dependencies.run) ∧
      (∀ n ∈ extract_group_members g
          ((buildPkgs cache descs).map (fun e => e.1)),
        ∃ p ∈ (buildPkgs cache descs).map (fun e => e.1), p.name = n) ∧
      ((∀ g' ∈ pkg.group_depends,
          extract_group_members g'
            ((buildPkgs cache descs).map (fun e => e.1)) = []) →
        d'.dependencies = desc.dependencies) := by
  have hin : (pkg, desc) ∈ buildPkgs cache descs :=
    buildPkgsAux_adds cache descs [] desc pkg bt hdesc hlook huniq hnd
  have hpk : ((buildPkgs cache descs).map (fun e => e.2.path)).Nodup :=
    buildPkgs_paths_nodup cache descs hnd
  have hagree : StoreAgrees (buildPkgs cache descs) descs := by
    intro e he s hs hp
    exact nodup_path_eq hnd hs (buildPkgs_mem cache descs e he).1 hp
  have hok : ∀ e ∈ buildPkgs cache descs, ∀ g' ∈ e.1.group_depends,
      (GroupDependency.evaluated_condition g').isSome := by
    intro e he g' hg'
    obtain ⟨_, bt', hl⟩ := buildPkgs_mem cache descs e he
    exact (hwf e.2.path e.1 bt' hl).groupList g' hg'
  have hgrow := augLoop_grows ((buildPkgs cache descs).map (fun e => e.1))
    (buildPkgs cache descs) descs hpk hagree
  obtain ⟨d', hd', hgd⟩ := forall2_grow_mem_left hgrow hdesc
  have hval := augLoop_value ((buildPkgs cache descs).map (fun e => e.1))
    (buildPkgs cache descs) descs pkg desc hpk hagree hok hin d' hd' hgd.1
  refine ⟨d', hd', hgd.1, ?_, ?_, ?_⟩
  · intro n hn
    rw [hval]
    exact processGroupDeps_adds _ pkg.group_depends desc
      (hok (pkg, desc) hin) g hg hcond n hn
  · intro n hn
    exact extract_group_members_sub g _ n hn
  · intro hempty
    rw [hval, processGroupDeps_unchanged _ _ _ hempty]

theorem cacheWF_cons (p : String) (v : Option Package × Option String)
    (c : Cache)
    (hv : ∀ pkg bt, v = (some pkg, bt) → PkgEvaluated pkg)
    (hc : CacheWF c) : CacheWF ((p, v) :: c) := by
  intro q pkg bt h
  rw [cacheLookup] at h
  split at h
  · exact hv pkg bt (Option.some_inj.mp h)
  · exact hc q pkg bt h

def gdep : GroupDependency := { name := "grp" }

def pkgGA : Package := { name := "A", group_depends := [gdep] }

def pkgGB : Package := { name := "B", member_of_groups := ["grp"] }

def cacheAB : Cache :=
  [("/ws/A", (some (evaluate_conditions pkgGA), some "ament_cmake")),
   ("/ws/B", (some (evaluate_conditions pkgGB), some "ament_cmake"))]

def descA : PackageDescriptor := { path := "/ws/A" }

def descB : PackageDescriptor := { path := "/ws/B" }

/-- Witness for C2: a batch of two descriptors where the package of the
first declares a true-condition group dependency whose single member
resolves to the second. -/
theorem ros_c2_group_members_added_witness :
    ∃ d' ∈ (augment_packages cacheAB [descA, descB]).1,
      d'.path = descA.path ∧
      (∀ n ∈ extract_group_members (evalGroupDep gdep)
          ((buildPkgs cacheAB [descA, descB]).map (fun e => e.1)),
        nameIn n d'.dependencies.build ∧ nameIn n d'.dependencies.run) ∧
      (∀ n ∈ extract_group_members (evalGroupDep gdep)
          ((buildPkgs cacheAB [descA, descB]).map (fun e => e.1)),
        ∃ p ∈ (buildPkgs cacheAB [descA, descB]).map (fun e => e.1),
          p.name = n) ∧
      ((∀ g' ∈ (evaluate_conditions pkgGA).group_depends,
          extract_group_members g'
            ((buildPkgs cacheAB [descA, descB]).map (fun e => e.1)) = []) →
        d'.dependencies = descA.dependencies) := by
  refine ros_c2_group_members_added cacheAB [descA, descB] descA
    (evaluate_conditions pkgGA) (some "ament_cmake") (evalGroupDep gdep)
    (by decide) (by decide) (by decide) ?_ ?_ (by decide) (by decide)
  · intro d' hd' bt' hl
    rcases List.mem_cons.mp hd' with rfl | hd2
    · rfl
    · rcases List.mem_cons.mp hd2 with rfl | hd3
      · exfalso
        have hcomp : cacheLookup cacheAB descB.path =
            some (some (evaluate_conditions pkgGB), some "ament_cmake") := by
          decide
        rw [hcomp] at hl
        have h1 := congrArg Prod.fst (Option.some_inj.mp hl)
        exact absurd (Option.some_inj.mp h1) (by decide)
      · cases hd3
  · refine cacheWF_cons _ _ _ ?_ (cacheWF_cons _ _ _ ?_ cacheWF_nil)
    · intro pkg bt h
      have h1 := congrArg Prod.fst h
      rw [← Option.some_inj.mp h1]
      exact evaluate_conditions_evaluated pkgGA
    · intro pkg bt h
      have h1 := congrArg Prod.fst h
      rw [← Option.some_inj.mp h1]
      exact evaluate_conditions_evaluated pkgGB

/-- Claim C10: along every sequence of identify and augment steps over a
batch of descriptors with distinct paths, the three dependency sets of every
descriptor only grow: each descriptor keeps its path, and every
DependencyDescriptor (with its metadata) present in a set before the
sequence is still present in that set afterwards. -/
theorem ros_c10_dependency_sets_only_grow
    (w : World) (s t : ScanState)
    (hnd : (s.descs.map (fun d => d.path)).Nodup)
    (hchain : Relation.ReflTransGen (ScanStep w) s t) :
    List.Forall₂ DepSetsGrow s.descs t.descs := by
  induction hchain with
  | refl => exact forall2_grow_refl s.descs
  | tail hst hstep ih =>
    refine forall2_grow_trans ih (scanStep_grows w ?_ hstep)
    rw [forall2_grow_paths ih]
    exact hnd

def ddPre : DependencyDescriptor := { name := "pre" }

def descC10 : PackageDescriptor :=
  { path := "/ws/alpha", dependencies := { build := [ddPre] } }

def scanS : ScanState := ⟨[], [descC10]⟩

def scanIdx : Fin scanS.descs.length := ⟨0, by decide⟩

def scanT : ScanState :=
  ⟨(identify wAlpha scanS.cache (scanS.descs.get scanIdx)).cache,
    scanS.descs.set scanIdx
      (identify wAlpha scanS.cache (scanS.descs.get scanIdx)).desc⟩

/-- Witness for C10: one identify step over a one-descriptor batch whose
descriptor already holds a build dependency. -/
theorem ros_c10_dependency_sets_only_grow_witness :
    List.Forall₂ DepSetsGrow scanS.descs scanT.descs :=
  ros_c10_dependency_sets_only_grow wAlpha scanS scanT (by decide)
    (Relation.ReflTransGen.single (ScanStep.identifyAt scanS scanIdx))
